import Mathlib

/-!
Shallow embedding of the realization engine of this accounting program
(source file: src/python/beancount/core/realization.py), together with the
parts of its data model it relies on.  Account names are Python strings
(colon-separated); dates are modelled as naturals (only their ordering is
used); decimal quantities are modelled as rationals (exact arithmetic).
Python object identity of a Transaction, used by the balance iteration to
de-duplicate postings of one transaction, is modelled by a numeric id
carried by the entry reference.
-/

set_option maxHeartbeats 1000000

namespace Realization

/-- An amount: exact decimal number and a currency code. -/
structure Amount where
  number : ℚ
  currency : String
deriving DecidableEq, Repr

/-- A cost lot: (currency, optional cost amount, optional cost date,
optional label).  Two positions are in the same lot iff all four match. -/
structure Lot where
  currency : String
  cost : Option Amount
  costDate : Option ℕ
  lotLabel : Option String
deriving DecidableEq, Repr

/-- A position: a lot plus a signed quantity. -/
structure Position where
  lot : Lot
  number : ℚ
deriving DecidableEq, Repr

/-- Modelled from the spec: the Inventory of beancount.core.inventory (the
module is not part of the sources given), an unordered collection of
positions with at most one position per lot key. -/
def Inventory := List Position
deriving DecidableEq, Repr

instance : EmptyCollection Inventory := ⟨([] : List Position)⟩

/-- Modelled from the spec: Inventory.add_position with allow_negative=true
(the only mode the realization code uses): locate an existing stored
position with an identical lot key; if found, replace its quantity with the
sum; if not found, insert the new position. -/
def Inventory.add_position : Inventory → Position → Inventory
  | [], pos => [pos]
  | p :: rest, pos =>
      if p.lot = pos.lot then { lot := p.lot, number := p.number + pos.number } :: rest
      else p :: Inventory.add_position rest pos

/-- Total quantity an inventory holds in a given lot (the semantic content
of an inventory at one lot key; spec equality of inventories is equality of
these totals at every lot). -/
def Inventory.tot (inv : Inventory) (l : Lot) : ℚ :=
  (List.map (fun p => if p.lot = l then p.number else 0) inv).sum

/-- A reference to the Transaction owning a posting.  The id models Python
object identity (two postings reference the same transaction object iff the
ids are equal); the date is the transaction's date. -/
structure EntryRef where
  id : ℕ
  date : ℕ
deriving DecidableEq, Repr

/-- One leg of a transaction (beancount.core.data.Posting): account name,
position, and the back-reference to the owning transaction. -/
structure Posting where
  account : String
  position : Position
  entry : EntryRef
deriving DecidableEq, Repr

/-- The directive kinds handled by the realization code
(beancount.core.data).  Only the fields the realization code reads are
modelled: the date, the account name(s), and a transaction's postings. -/
inductive Directive where
  | txn (entry : EntryRef) (postings : List Posting)
  | opn (date : ℕ) (account : String)
  | cls (date : ℕ) (account : String)
  | bal (date : ℕ) (account : String)
  | note (date : ℕ) (account : String)
  | doc (date : ℕ) (account : String)
  | pad (date : ℕ) (account : String) (account_pad : String)
  | price (date : ℕ)
deriving DecidableEq, Repr

/-- The date of a directive. -/
def Directive.date : Directive → ℕ
  | .txn e _ => e.date
  | .opn d _ => d
  | .cls d _ => d
  | .bal d _ => d
  | .note d _ => d
  | .doc d _ => d
  | .pad d _ _ => d
  | .price d => d

/-- An element of a realized account's postings list: either a Posting (in
lieu of its Transaction) or a non-transaction directive. -/
inductive Pe where
  | posting (p : Posting)
  | dir (d : Directive)
deriving DecidableEq, Repr

/-! ### Account name strings

beancount.core.account (not part of the given sources) supplies the
separator, split and join.  Python str.split with an explicit separator and
str.join are modelled on the underlying character lists. -/

/-- Python account_name.split(account.sep) with sep = a single colon.
Note that the empty string splits into one empty component, as in Python. -/
def splitName (s : String) : List String :=
  (s.data.splitOn ':').map (fun l => String.mk l)

/-- Modelled from the spec: beancount.core.account.join, i.e.
account.sep.join(components). -/
def joinName (segs : List String) : String :=
  String.mk (List.intercalate [':'] (segs.map String.data))

/-- Python a.endswith(b), modelled as a suffix test on character lists. -/
def endsWithStr (a b : String) : Bool :=
  b.data.isSuffixOf a.data

theorem data_map_mk (xs : List (List Char)) :
    List.map String.data (List.map (fun l => String.mk l) xs) = xs := by
  induction xs with
  | nil => rfl
  | cons a as ih => rw [List.map_cons, List.map_cons, ih]

theorem joinName_splitName (s : String) : joinName (splitName s) = s := by
  cases s with
  | mk data =>
      show String.mk (List.intercalate [':']
        (List.map String.data (List.map (fun l => String.mk l) (data.splitOn ':'))))
        = String.mk data
      rw [data_map_mk]
      exact congrArg String.mk (List.intercalate_splitOn data ':')

theorem splitName_injective : Function.Injective splitName := by
  intro a b h
  have ha := joinName_splitName a
  have hb := joinName_splitName b
  rw [← ha, ← hb, h]

/-! ### The RealAccount tree

realization.RealAccount is a dict subclass mapping path segments to child
RealAccount nodes, additionally carrying the full account name, the list of
directly attached postings and the balance.  The dict is modelled as an
insertion-ordered association list with unique keys (Python dicts preserve
insertion order, and overwriting a key keeps its position). -/

inductive RealAccount : Type where
  | mk (account : String) (postings : List Pe) (balance : Inventory)
       (children : List (String × RealAccount))

def RealAccount.account : RealAccount → String
  | .mk a _ _ _ => a

def RealAccount.postings : RealAccount → List Pe
  | .mk _ ps _ _ => ps

def RealAccount.balance : RealAccount → Inventory
  | .mk _ _ b _ => b

def RealAccount.children : RealAccount → List (String × RealAccount)
  | .mk _ _ _ cs => cs

/-- dict lookup of a direct child (real_account.get(component, None)). -/
def lookupChild (t : RealAccount) (k : String) : Option RealAccount :=
  (t.children.find? (fun pr => pr.1 = k)).map (fun pr => pr.2)

/-- Python dict assignment semantics: overwrite the first binding of the
key, keeping its position, else append a new binding at the end. -/
def dictInsert : List (String × RealAccount) → String → RealAccount →
    List (String × RealAccount)
  | [], k, v => [(k, v)]
  | (k1, v1) :: rest, k, v =>
      if k1 = k then (k, v) :: rest else (k1, v1) :: dictInsert rest k v

/-- The raw store of RealAccount.__setitem__ (after its checks pass). -/
def setChildRaw (t : RealAccount) (k : String) (v : RealAccount) : RealAccount :=
  .mk t.account t.postings t.balance (dictInsert t.children k v)

/-- The error classes RealAccount.__setitem__ raises. -/
inductive SetErr where
  | keyError (msg : String)
  | valueError (msg : String)
deriving DecidableEq, Repr

/-- RealAccount.__setitem__: KeyError on a non-string (not representable
here) or empty key; ValueError on a non-RealAccount value (not
representable here) or when the value's account name does not end with the
key; otherwise stores the child under the key. -/
def RealAccount.setitem (t : RealAccount) (key : String) (value : RealAccount) :
    Except SetErr RealAccount :=
  if key = "" then .error (.keyError key)
  else if endsWithStr value.account key then .ok (setChildRaw t key value)
  else .error (.valueError value.account)

/-- The component walk of realization.get: follow each component, returning
none (the default) as soon as a component is missing. -/
def getComps : RealAccount → List String → Option RealAccount
  | t, [] => some t
  | t, c :: rest =>
      match lookupChild t c with
      | none => none
      | some child => getComps child rest

/-- realization.get with default None: split the name and walk. -/
def get (t : RealAccount) (account_name : String) : Option RealAccount :=
  getComps t (splitName account_name)

/-- realization.contains. -/
def containsName (t : RealAccount) (account_name : String) : Bool :=
  (get t account_name).isSome

/-- The loop of realization.get_or_create, walking the components while
accumulating the path so far; a missing child is created with account name
account.join(*path).  The insertion goes through __setitem__, whose only
check that can fail here is the empty-key KeyError (the created node's name
joinName (path ++ [c]) always ends with the nonempty key c, and the type
checks are type-level); a failure aborts with none (the exception).  The
functional rendering threads the updated child back into the parent with
dict-assignment semantics; when the child already existed this write-back
is the identity on the tree whenever the subtree is unchanged. -/
def get_or_create_go : RealAccount → List String → List String →
    Option (RealAccount × RealAccount)
  | t, [], _ => some (t, t)
  | t, c :: rest, path =>
      match lookupChild t c with
      | some child =>
          match get_or_create_go child rest (path ++ [c]) with
          | none => none
          | some (child2, nd) => some (setChildRaw t c child2, nd)
      | none =>
          if c = "" then none
          else
            match get_or_create_go (RealAccount.mk (joinName (path ++ [c])) [] {} [])
                rest (path ++ [c]) with
            | none => none
            | some (child2, nd) => some (setChildRaw t c child2, nd)

/-- realization.get_or_create: returns the updated tree together with the
node for the full account name (Python mutates the tree in place and
returns the node). -/
def get_or_create (t : RealAccount) (account_name : String) :
    Option (RealAccount × RealAccount) :=
  get_or_create_go t (splitName account_name) []

/-! ### Grouping and realize -/

/-- defaultdict(list) append: extend the list bound to the key, creating a
new binding at the end on first use. -/
def appendToMap : List (String × List Pe) → String → Pe → List (String × List Pe)
  | [], k, v => [(k, [v])]
  | (k1, vs) :: rest, k, v =>
      if k1 = k then (k1, vs ++ [v]) :: rest
      else (k1, vs) :: appendToMap rest k v

/-- One iteration of the loop of realization.group_by_account. -/
def group_step (m : List (String × List Pe)) : Directive → List (String × List Pe)
  | .txn _e postings =>
      postings.foldl (fun m2 p => appendToMap m2 p.account (.posting p)) m
  | .opn d a => appendToMap m a (.dir (.opn d a))
  | .cls d a => appendToMap m a (.dir (.cls d a))
  | .bal d a => appendToMap m a (.dir (.bal d a))
  | .note d a => appendToMap m a (.dir (.note d a))
  | .doc d a => appendToMap m a (.dir (.doc d a))
  | .pad d a ap =>
      appendToMap (appendToMap m a (.dir (.pad d a ap))) ap (.dir (.pad d a ap))
  | .price _ => m

/-- realization.group_by_account. -/
def group_by_account (entries : List Directive) : List (String × List Pe) :=
  entries.foldl group_step []

/-- realization.compute_postings_balance: sum the positions of the Posting
instances of the list into a fresh Inventory, skipping other directives. -/
def compute_postings_balance (postings : List Pe) : Inventory :=
  postings.foldl
    (fun b pe =>
      match pe with
      | .posting p => b.add_position p.position
      | .dir _ => b)
    {}

/-- Apply f to the node at the given component path (used to render the
in-place attribute mutations of realize on the node returned by
get_or_create). -/
def modifyAt : RealAccount → List String → (RealAccount → RealAccount) → RealAccount
  | t, [], f => f t
  | t, c :: rest, f =>
      match lookupChild t c with
      | none => t
      | some child => setChildRaw t c (modifyAt child rest f)

/-- The two attribute assignments of the realize loop body:
real_account.postings = postings; real_account.balance =
compute_postings_balance(postings). -/
def setNodeData (ps : List Pe) (t : RealAccount) : RealAccount :=
  .mk t.account ps (compute_postings_balance ps) t.children

/-- One iteration of the realize loop over postings_map.items(). -/
def realize_step (t : RealAccount) (pr : String × List Pe) : Option RealAccount :=
  match get_or_create t pr.1 with
  | none => none
  | some (t2, _) => some (modifyAt t2 (splitName pr.1) (setNodeData pr.2))

/-- realization.realize: group the entries by account, build the tree
setting each grouped account's postings and balance, then get-or-create the
min_accounts.  An escaped KeyError (malformed account name) is rendered as
none. -/
def realize (entries : List Directive) (min_accounts : List String) :
    Option RealAccount :=
  match (group_by_account entries).foldlM realize_step (RealAccount.mk "" [] {} []) with
  | none => none
  | some root => min_accounts.foldlM (fun t a => (get_or_create t a).map (fun pr => pr.1)) root

/-! ### Depth-first iteration, filtering, and tree traversal helpers -/

/-- Python string comparison (lexicographic by code point), as used by
sorted(): an executable total order on the underlying character lists. -/
def charListLe : List Char → List Char → Bool
  | [], _ => true
  | _ :: _, [] => false
  | a :: as, b :: bs =>
      if a.toNat < b.toNat then true
      else if b.toNat < a.toNat then false
      else charListLe as bs

/-- The comparison sorted(real_account.items()) orders the items by: the
key (string) component; the keys of a dict are unique, so the tuple
comparison never reaches the value components. -/
def keyLe (p q : String × RealAccount) : Prop :=
  charListLe p.1.data q.1.data = true

instance : DecidableRel keyLe := fun p q => by
  unfold keyLe
  infer_instance

/-- sorted(real_account.items()): the items sorted in ascending key order. -/
def sortK (cs : List (String × RealAccount)) : List (String × RealAccount) :=
  List.insertionSort keyLe cs

theorem mem_sortK {p : String × RealAccount} {cs : List (String × RealAccount)}
    (h : p ∈ sortK cs) : p ∈ cs :=
  (List.Perm.mem_iff (List.perm_insertionSort _ cs)).mp h

theorem sizeOf_lt_of_mem_children {p : String × RealAccount}
    {cs : List (String × RealAccount)} (h : p ∈ cs) : sizeOf p.2 < sizeOf cs := by
  have h1 := List.sizeOf_lt_of_mem h
  have h2 : sizeOf p.2 < sizeOf p := by
    cases p with
    | mk k c =>
        simp only [Prod.mk.sizeOf_spec]
        omega
  omega

/-- realization.iter_children: depth-first iteration; yields the node
itself (only when it is a leaf if leaf_only) and recurses into the children
in sorted key order. -/
def iter_children (leaf_only : Bool) (t : RealAccount) : List RealAccount :=
  match t with
  | .mk a ps bal cs =>
      if leaf_only then
        if cs.isEmpty then [RealAccount.mk a ps bal cs]
        else ((sortK cs).attach.map (fun x => iter_children leaf_only x.1.2)).flatten
      else
        RealAccount.mk a ps bal cs ::
          ((sortK cs).attach.map (fun x => iter_children leaf_only x.1.2)).flatten
termination_by sizeOf t
decreasing_by
  all_goals
    have hx := x.2
    simp only [sortK] at hx
    have h2 := List.sizeOf_lt_of_mem ((List.perm_insertionSort keyLe _).mem_iff.mp hx)
    have h3 : sizeOf x.1.2 < sizeOf x.1 := by
      obtain ⟨⟨k, c⟩, hm⟩ := x
      simp only [Prod.mk.sizeOf_spec]
      omega
    simp only [RealAccount.mk.sizeOf_spec]
    omega

mutual

/-- realization.filter: partial clone keeping a node iff the predicate
holds of it or some child survives; the clone keeps the account name,
postings and balance and the surviving children (in original order, as the
Python dict insertions preserve it). -/
def filterTree (p : RealAccount → Bool) : RealAccount → Option RealAccount
  | .mk a ps bal cs =>
      let kept := filterChildren p cs
      if 0 < kept.length || p (RealAccount.mk a ps bal cs) then
        some (RealAccount.mk a ps bal kept)
      else none

/-- The loop over real_account.items(): filter each child, keeping the
surviving copies under their keys in the original order. -/
def filterChildren (p : RealAccount → Bool) :
    List (String × RealAccount) → List (String × RealAccount)
  | [] => []
  | (k, c) :: rest =>
      match filterTree p c with
      | none => filterChildren p rest
      | some c2 => (k, c2) :: filterChildren p rest

end

mutual

/-- All nodes of a tree: the node itself and, recursively, the nodes of the
subtrees of its children (a specification-side helper used to state the
filter and naming claims). -/
def allNodes : RealAccount → List RealAccount
  | .mk a ps bal cs => RealAccount.mk a ps bal cs :: allNodesChildren cs

def allNodesChildren : List (String × RealAccount) → List RealAccount
  | [] => []
  | (_, c) :: rest => allNodes c ++ allNodesChildren rest

end

/-! ### iterate_with_balance -/

/-- The entry associated with an input item of iterate_with_balance: the
owning Transaction of a Posting (compared by identity, i.e. by EntryRef),
or the directive itself. -/
inductive EKey where
  | txn (e : EntryRef)
  | dir (d : Directive)
deriving DecidableEq, Repr

/-- entry.date for either kind of entry. -/
def EKey.date : EKey → ℕ
  | .txn e => e.date
  | .dir d => d.date

/-- The entry key of an input item. -/
def peKey : Pe → EKey
  | .posting p => .txn p.entry
  | .dir d => .dir d

/-- One tuple (entry, postings, change, balance) yielded by
iterate_with_balance. -/
structure OutRow where
  entry : EKey
  postings : List Posting
  change : Inventory
  balance : Inventory
deriving DecidableEq, Repr

/-- Flushing the dated entries: for each buffered (entry, postings) pair in
order, fold the postings into a fresh change inventory and into the running
balance, and yield (entry, postings, change, balance-after).  Returns the
final running balance together with the yielded rows. -/
def flush (bal : Inventory) : List (EKey × List Posting) → Inventory × List OutRow
  | [] => (bal, [])
  | (e, ps) :: rest =>
      let change := ps.foldl (fun c p => c.add_position p.position) ({} : Inventory)
      let bal2 := ps.foldl (fun b p => b.add_position p.position) bal
      let r := flush bal2 rest
      (r.1, ⟨e, ps, change, bal2⟩ :: r.2)

/-- misc_utils.index_key grouping step: append the posting to the first
buffered pair whose entry is the same transaction (identity), else append a
new (entry, [posting]) pair at the end. -/
def dedupAppend : List (EKey × List Posting) → EKey → Posting →
    List (EKey × List Posting)
  | [], e, p => [(e, [p])]
  | (e1, ps) :: rest, e, p =>
      if e1 = e then (e1, ps ++ [p]) :: rest
      else (e1, ps) :: dedupAppend rest e p

/-- Buffering one input item into the same-date entries: a posting is
de-duplicated onto its owning entry; a plain directive forms its own pair
with an empty posting list. -/
def pushItem (de : List (EKey × List Posting)) : Pe → List (EKey × List Posting)
  | .posting p => dedupAppend de (.txn p.entry) p
  | .dir d => de ++ [(.dir d, [])]

/-- The loop of iterate_with_balance, carrying the running balance, the
previous date and the buffered same-date entries.  A date change asserts
strict increase (rendered as none) and flushes the buffer; the end of input
flushes the remaining buffer. -/
def iwbGo (bal : Inventory) (prev_date : Option ℕ) (de : List (EKey × List Posting)) :
    List Pe → Option (List OutRow)
  | [] => some (flush bal de).2
  | pe :: rest =>
      let d := (peKey pe).date
      if some d = prev_date then
        iwbGo bal prev_date (pushItem de pe) rest
      else
        match prev_date with
        | none =>
            let r := flush bal de
            match iwbGo r.1 (some d) (pushItem [] pe) rest with
            | none => none
            | some out => some (r.2 ++ out)
        | some pd =>
            if pd < d then
              let r := flush bal de
              match iwbGo r.1 (some d) (pushItem [] pe) rest with
              | none => none
              | some out => some (r.2 ++ out)
            else none

/-- realization.iterate_with_balance; none models the AssertionError on a
date-order violation. -/
def iterate_with_balance (items : List Pe) : Option (List OutRow) :=
  iwbGo {} none [] items

mutual

/-- Canonical form of a tree: recursively sort every child list by key.
Two trees have identical contents regardless of child insertion order
exactly when their canonical forms are equal. -/
def canon : RealAccount → RealAccount
  | .mk a ps bal cs => RealAccount.mk a ps bal (sortK (canonChildren cs))

def canonChildren : List (String × RealAccount) → List (String × RealAccount)
  | [] => []
  | (k, c) :: rest => (k, canon c) :: canonChildren rest

end

/-! ### Lemmas about grouping -/

/-- Reference reading of the spec of group_by_account: the stream of
(account, stored item) insertions a directive causes: one per posting of a
transaction, one for an open/close/balance/note/document, two for a pad
(source account and pad account), none for any other kind. -/
def contribOf : Directive → List (String × Pe)
  | .txn _ ps => ps.map (fun p => (p.account, Pe.posting p))
  | .opn d a => [(a, .dir (.opn d a))]
  | .cls d a => [(a, .dir (.cls d a))]
  | .bal d a => [(a, .dir (.bal d a))]
  | .note d a => [(a, .dir (.note d a))]
  | .doc d a => [(a, .dir (.doc d a))]
  | .pad d a ap => [(a, .dir (.pad d a ap)), (ap, .dir (.pad d a ap))]
  | .price _ => []

/-- Reading a grouped map at an account: defaultdict semantics, the absent
account reads as the empty list. -/
def lookupList (m : List (String × List Pe)) (a : String) : List Pe :=
  ((m.find? (fun pr => pr.1 = a)).map (fun pr => pr.2)).getD []

/-- A well-formed account name: every colon-separated component is
nonempty (the validity predicate the spec requires of account names). -/
def WFName (A : String) : Prop :=
  ∀ c ∈ splitName A, c ≠ ""

/-- The naming invariant of a tree relative to the path leading to it: the
node reached by a nonempty component path p carries the account name
joinName (path ++ p).  For a root this is NamedFrom t [], i.e. every proper
descendant is named by its path (spec: a node's name ends with its key and
has one segment per level). -/
def NamedFrom (t : RealAccount) (path : List String) : Prop :=
  ∀ p n, getComps t p = some n → p ≠ [] → n.account = joinName (path ++ p)

/-- The empty root node realize starts from: RealAccount(''). -/
def RA0 : RealAccount := .mk "" [] {} []

/-- A root whose child violates the naming invariant while still being
insertable through RealAccount.__setitem__ ('Foo:Assets'.endswith('Assets')
holds). -/
def badT : RealAccount := .mk "" [] {} [("Assets", .mk "Foo:Assets" [] {} [])]

/-- No node of the tree has a child stored under the empty key (always true
of trees built by the module, since __setitem__ rejects empty keys). -/
def NoEmptyKeys (t : RealAccount) : Prop :=
  ∀ n ∈ allNodes t, ∀ pr ∈ n.children, pr.1 ≠ ""

def ndChecking : RealAccount := .mk "Assets:Checking" [] {} []

def ndAssets : RealAccount := .mk "Assets" [] {} [("Checking", ndChecking)]

def TA : RealAccount := .mk "" [] {} [("Assets", ndAssets)]

def TAE : RealAccount :=
  .mk "" [] {} [("Assets", ndAssets), ("Equity", .mk "Equity" [] {} [])]

def T8 : RealAccount := .mk "" [] {} [("Assets", .mk "Assets" [] {} [])]

def ND8 : RealAccount := .mk "Assets" [] {} []

/-- The date of an input item of iterate_with_balance: the owning entry's
date. -/
def peDate (pe : Pe) : ℕ :=
  (peKey pe).date

/-- The dates the loop of iterate_with_balance accepts from a given
previous date: each item's date must be ≥ its predecessor's (equal stays in
the same buffered group, larger passes the strictness assertion). -/
def DatesOK : Option ℕ → List Pe → Prop
  | _, [] => True
  | pd, pe :: rest =>
      (match pd with
       | none => True
       | some p => p ≤ peDate pe) ∧ DatesOK (some (peDate pe)) rest

/-- The contribution of one posting to the total of a lot. -/
def lotNum (lot : Lot) (p : Posting) : ℚ :=
  if p.position.lot = lot then p.position.number else 0

/-- The total contribution of a list of postings to a lot, counting every
list element exactly once, independently of order. -/
def lotSum (lot : Lot) (ps : List Posting) : ℚ :=
  (ps.map (lotNum lot)).sum

/-- All postings buffered in the same-date entries. -/
def dePostings (de : List (EKey × List Posting)) : List Posting :=
  (de.map Prod.snd).flatten

/-- The postings among a list of input items. -/
def pePostings (l : List Pe) : List Posting :=
  l.filterMap (fun pe =>
    match pe with
    | .posting p => some p
    | .dir _ => none)

def scUSD : Lot := ⟨"USD", none, none, none⟩

def scEref : EntryRef := ⟨0, 20140222⟩

def scP1 : Posting := ⟨"Assets:Checking", ⟨scUSD, -100⟩, scEref⟩

def scP2 : Posting := ⟨"Expenses:Food", ⟨scUSD, 100⟩, scEref⟩

def scOpen1 : Pe := .dir (.opn 20140101 "Assets:Checking")

def scOpen2 : Pe := .dir (.opn 20140101 "Expenses:Food")

def scEntries : List Directive :=
  [.opn 20140101 "Assets:Checking", .opn 20140101 "Expenses:Food",
    .txn scEref [scP1, scP2]]

/-- The tree realize builds from the scenario entries. -/
def scRoot : RealAccount :=
  .mk "" [] {}
    [("Assets", .mk "Assets" [] {}
        [("Checking", .mk "Assets:Checking" [scOpen1, .posting scP1] [⟨scUSD, -100⟩] [])]),
     ("Expenses", .mk "Expenses" [] {}
        [("Food", .mk "Expenses:Food" [scOpen2, .posting scP2] [⟨scUSD, 100⟩] [])])]

def T6a : RealAccount :=
  .mk "" [] {} [("B", .mk "B" [] {} []), ("A", .mk "A" [] {} [])]

def T6b : RealAccount :=
  .mk "" [] {} [("A", .mk "A" [] {} []), ("B", .mk "B" [] {} [])]

theorem lookupList_appendToMap (m : List (String × List Pe)) (k : String) (v : Pe)
    (a : String) :
    lookupList (appendToMap m k v) a =
      lookupList m a ++ (if k = a then [v] else []) := by
  induction m with
  | nil =>
      by_cases hka : k = a
      · simp [appendToMap, lookupList, hka]
      · simp [appendToMap, lookupList, hka]
  | cons hd tl ih =>
      obtain ⟨k1, vs⟩ := hd
      by_cases h1 : k1 = k
      · subst h1
        by_cases hka : k1 = a
        · simp [appendToMap, lookupList, hka]
        · simp [appendToMap, lookupList, hka]
      · by_cases hka : k1 = a
        · have hak : ¬ a = k := hka ▸ h1
          have hka2 : ¬ k = a := fun h => hak h.symm
          simp [appendToMap, lookupList, h1, hka, hak, hka2]
        · simp only [appendToMap, if_neg h1]
          simpa [lookupList, List.find?_cons, hka] using ih

theorem lookupList_foldl_postings (ps : List Posting) (m : List (String × List Pe))
    (a : String) :
    lookupList (ps.foldl (fun m2 p => appendToMap m2 p.account (.posting p)) m) a =
      lookupList m a ++
        (((ps.map (fun p => (p.account, Pe.posting p))).filter
            (fun pr => pr.1 = a)).map (fun pr => pr.2)) := by
  induction ps generalizing m with
  | nil => simp
  | cons p rest ih =>
      simp only [List.foldl_cons, List.map_cons]
      rw [ih, lookupList_appendToMap]
      by_cases h : p.account = a
      · simp [List.filter_cons, h, List.append_assoc]
      · simp [List.filter_cons, h]

theorem lookupList_group_step (m : List (String × List Pe)) (e : Directive)
    (a : String) :
    lookupList (group_step m e) a =
      lookupList m a ++
        ((contribOf e).filter (fun pr => pr.1 = a)).map (fun pr => pr.2) := by
  cases e with
  | txn er ps => exact lookupList_foldl_postings ps m a
  | pad d acc accp =>
      simp only [group_step, contribOf]
      rw [lookupList_appendToMap, lookupList_appendToMap]
      by_cases h1 : acc = a <;> by_cases h2 : accp = a <;>
        simp [List.filter_cons, h1, h2, List.append_assoc]
  | opn d acc =>
      simp only [group_step, contribOf]
      rw [lookupList_appendToMap]
      by_cases h1 : acc = a <;> simp [List.filter_cons, h1]
  | cls d acc =>
      simp only [group_step, contribOf]
      rw [lookupList_appendToMap]
      by_cases h1 : acc = a <;> simp [List.filter_cons, h1]
  | bal d acc =>
      simp only [group_step, contribOf]
      rw [lookupList_appendToMap]
      by_cases h1 : acc = a <;> simp [List.filter_cons, h1]
  | note d acc =>
      simp only [group_step, contribOf]
      rw [lookupList_appendToMap]
      by_cases h1 : acc = a <;> simp [List.filter_cons, h1]
  | doc d acc =>
      simp only [group_step, contribOf]
      rw [lookupList_appendToMap]
      by_cases h1 : acc = a <;> simp [List.filter_cons, h1]
  | price d => simp [group_step, contribOf]

theorem lookupList_foldl_group (entries : List Directive)
    (m : List (String × List Pe)) (a : String) :
    lookupList (entries.foldl group_step m) a =
      lookupList m a ++
        (((entries.map contribOf).flatten).filter (fun pr => pr.1 = a)).map
          (fun pr => pr.2) := by
  induction entries generalizing m with
  | nil => simp
  | cons e rest ih =>
      simp only [List.foldl_cons, List.map_cons, List.flatten_cons]
      rw [ih, lookupList_group_step]
      simp [List.filter_append, List.append_assoc]

theorem keys_appendToMap (m : List (String × List Pe)) (k : String) (v : Pe) :
    (appendToMap m k v).map Prod.fst =
      if k ∈ m.map Prod.fst then m.map Prod.fst else m.map Prod.fst ++ [k] := by
  induction m with
  | nil => simp [appendToMap]
  | cons hd tl ih =>
      obtain ⟨k1, vs⟩ := hd
      by_cases h1 : k1 = k
      · simp [appendToMap, h1]
      · have h2 : ¬ k = k1 := fun h => h1 h.symm
        simp [appendToMap, h1, h2, ih]
        by_cases h3 : k ∈ tl.map Prod.fst <;> simp [h3, h2]

theorem keys_appendToMap_nodup {m : List (String × List Pe)} {k : String} {v : Pe}
    (h : (m.map Prod.fst).Nodup) : ((appendToMap m k v).map Prod.fst).Nodup := by
  rw [keys_appendToMap]
  by_cases h1 : k ∈ m.map Prod.fst
  · simpa [h1] using h
  · simp only [h1, if_false]
    rw [List.nodup_append_comm, List.singleton_append, List.nodup_cons]
    exact ⟨h1, h⟩

theorem keys_group_step_nodup {m : List (String × List Pe)} {e : Directive}
    (h : (m.map Prod.fst).Nodup) : ((group_step m e).map Prod.fst).Nodup := by
  cases e with
  | txn er ps =>
      show ((ps.foldl (fun m2 p => appendToMap m2 p.account (.posting p)) m).map
          Prod.fst).Nodup
      induction ps generalizing m with
      | nil => simpa using h
      | cons p rest ih => exact ih (keys_appendToMap_nodup h)
  | opn d a => exact keys_appendToMap_nodup h
  | cls d a => exact keys_appendToMap_nodup h
  | bal d a => exact keys_appendToMap_nodup h
  | note d a => exact keys_appendToMap_nodup h
  | doc d a => exact keys_appendToMap_nodup h
  | pad d a ap => exact keys_appendToMap_nodup (keys_appendToMap_nodup h)
  | price d => exact h

theorem keys_group_by_account_nodup (entries : List Directive) :
    ((group_by_account entries).map Prod.fst).Nodup := by
  show ((entries.foldl group_step []).map Prod.fst).Nodup
  have h : ∀ (es : List Directive) (m : List (String × List Pe)),
      (m.map Prod.fst).Nodup → ((es.foldl group_step m).map Prod.fst).Nodup := by
    intro es
    induction es with
    | nil => intro m hm; simpa using hm
    | cons e rest ih => intro m hm; exact ih _ (keys_group_step_nodup hm)
  exact h entries [] (by simp)

/-- Membership in a grouped map determines lookupList (keys are unique). -/
theorem lookupList_of_mem {m : List (String × List Pe)} {a : String} {ps : List Pe}
    (hnd : (m.map Prod.fst).Nodup) (hmem : (a, ps) ∈ m) : lookupList m a = ps := by
  induction m with
  | nil => cases hmem
  | cons hd tl ih =>
      obtain ⟨k1, vs⟩ := hd
      simp only [List.map_cons, List.nodup_cons] at hnd
      rcases List.mem_cons.mp hmem with h | h
      · rw [Prod.mk.injEq] at h
        obtain ⟨h1, h2⟩ := h
        subst h1
        subst h2
        simp [lookupList]
      · have hk1 : ¬ (k1 = a) := by
          intro he
          subst he
          exact hnd.1 (List.mem_map.mpr ⟨(k1, ps), h, rfl⟩)
        simpa [lookupList, List.find?_cons, hk1] using ih hnd.2 h

/-! ### Lemmas about the tree operations -/

theorem account_setChildRaw (t : RealAccount) (k : String) (v : RealAccount) :
    (setChildRaw t k v).account = t.account := rfl

theorem postings_setChildRaw (t : RealAccount) (k : String) (v : RealAccount) :
    (setChildRaw t k v).postings = t.postings := rfl

theorem balance_setChildRaw (t : RealAccount) (k : String) (v : RealAccount) :
    (setChildRaw t k v).balance = t.balance := rfl

theorem find?_dictInsert (cs : List (String × RealAccount)) (k : String)
    (v : RealAccount) (a : String) :
    (dictInsert cs k v).find? (fun pr => pr.1 = a) =
      if a = k then some (k, v) else cs.find? (fun pr => pr.1 = a) := by
  induction cs with
  | nil =>
      by_cases h : a = k
      · simp [dictInsert, List.find?_cons, h]
      · have h2 : ¬ (k = a) := fun he => h he.symm
        simp [dictInsert, List.find?_cons, h, h2]
  | cons hd tl ih =>
      obtain ⟨k1, v1⟩ := hd
      by_cases h1 : k1 = k
      · subst h1
        by_cases h : a = k1
        · simp [dictInsert, List.find?_cons, h]
        · have h2 : ¬ (k1 = a) := fun he => h he.symm
          simp [dictInsert, List.find?_cons, h, h2]
      · by_cases h : k1 = a
        · subst h
          have h2 : ¬ (k1 = k) := h1
          simp [dictInsert, h2, List.find?_cons, fun (he : k1 = k) => h2 he]
        · simp [dictInsert, h1, List.find?_cons, h, ih]

theorem lookupChild_setChildRaw (t : RealAccount) (k : String) (v : RealAccount)
    (a : String) :
    lookupChild (setChildRaw t k v) a =
      if a = k then some v else lookupChild t a := by
  show ((dictInsert t.children k v).find? (fun pr => pr.1 = a)).map
      (fun pr => pr.2) = _
  rw [find?_dictInsert]
  by_cases h : a = k
  · simp [h]
  · simp [h, lookupChild]

theorem dictInsert_self {cs : List (String × RealAccount)} {k : String}
    {v : RealAccount} (h : cs.find? (fun pr => pr.1 = k) = some (k, v)) :
    dictInsert cs k v = cs := by
  induction cs with
  | nil => simp at h
  | cons hd tl ih =>
      obtain ⟨k1, v1⟩ := hd
      by_cases h1 : k1 = k
      · subst h1
        simp [List.find?_cons] at h
        simp [dictInsert, h]
      · simp only [List.find?_cons] at h
        have hd1 : (decide (k1 = k)) = false := by simpa using h1
        rw [hd1] at h
        simp [dictInsert, h1, ih h]

theorem setChildRaw_self {t : RealAccount} {k : String} {child : RealAccount}
    (h : lookupChild t k = some child) : setChildRaw t k child = t := by
  have hfind : t.children.find? (fun pr => pr.1 = k) = some (k, child) := by
    unfold lookupChild at h
    cases hf : t.children.find? (fun pr => pr.1 = k) with
    | none => rw [hf] at h; cases h
    | some pr =>
        rw [hf] at h
        have hpr1 : pr.1 = k := by simpa using List.find?_some hf
        have hpr2 : pr.2 = child := by simpa using h
        rw [← hpr1, ← hpr2]
  obtain ⟨a, ps, bal, cs⟩ := t
  simp only [RealAccount.children] at hfind
  show RealAccount.mk a ps bal (dictInsert cs k child) = RealAccount.mk a ps bal cs
  rw [dictInsert_self hfind]

theorem getComps_modifyAt_self {q : List String} :
    ∀ {t n : RealAccount} {f : RealAccount → RealAccount},
      getComps t q = some n → getComps (modifyAt t q f) q = some (f n) := by
  induction q with
  | nil =>
      intro t n f h
      simp only [getComps, Option.some.injEq] at h
      subst h
      simp [modifyAt, getComps]
  | cons c q' ih =>
      intro t n f h
      simp only [getComps] at h
      cases hl : lookupChild t c with
      | none => rw [hl] at h; cases h
      | some child =>
          rw [hl] at h
          simp only [modifyAt, hl, getComps]
          rw [lookupChild_setChildRaw]
          simp only [if_pos rfl]
          exact ih h

theorem getComps_modifyAt_frame {q : List String} :
    ∀ {t m : RealAccount} {p : List String} (f : RealAccount → RealAccount),
      (∀ n, (f n).children = n.children) → p ≠ q → getComps t p = some m →
      ∃ m2, getComps (modifyAt t q f) p = some m2 ∧ m2.account = m.account ∧
        m2.postings = m.postings ∧ m2.balance = m.balance := by
  induction q with
  | nil =>
      intro t m p f hf hpq h
      cases p with
      | nil => exact absurd rfl hpq
      | cons c p' =>
          simp only [getComps] at h
          cases hl : lookupChild t c with
          | none => rw [hl] at h; cases h
          | some child =>
              rw [hl] at h
              refine ⟨m, ?_, rfl, rfl, rfl⟩
              simp only [modifyAt, getComps]
              have hl2 : lookupChild (f t) c = some child := by
                unfold lookupChild
                rw [hf t]
                exact hl
              rw [hl2]
              exact h
  | cons c q' ih =>
      intro t m p f hf hpq h
      simp only [modifyAt]
      cases hl : lookupChild t c with
      | none => exact ⟨m, h, rfl, rfl, rfl⟩
      | some child =>
          cases p with
          | nil =>
              simp only [getComps, Option.some.injEq] at h
              subst h
              exact ⟨_, rfl, rfl, rfl, rfl⟩
          | cons c1 p' =>
              simp only [getComps] at h ⊢
              by_cases hc : c1 = c
              · subst hc
                rw [hl] at h
                rw [lookupChild_setChildRaw]
                simp only [if_pos rfl]
                have hpq' : p' ≠ q' := by
                  intro he
                  exact hpq (by rw [he])
                exact ih f hf hpq' h
              · cases hl1 : lookupChild t c1 with
                | none => rw [hl1] at h; cases h
                | some child1 =>
                    rw [hl1] at h
                    rw [lookupChild_setChildRaw]
                    simp only [if_neg hc, lookupChild]
                    refine ⟨m, ?_, rfl, rfl, rfl⟩
                    have : lookupChild t c1 = some child1 := hl1
                    unfold lookupChild at this
                    rw [this]
                    exact h

theorem goc_of_getComps {comps : List String} :
    ∀ {t n : RealAccount} (path : List String), getComps t comps = some n →
      get_or_create_go t comps path = some (t, n) := by
  induction comps with
  | nil =>
      intro t n path h
      simp only [getComps, Option.some.injEq] at h
      subst h
      rfl
  | cons c rest ih =>
      intro t n path h
      simp only [getComps] at h
      cases hl : lookupChild t c with
      | none => rw [hl] at h; cases h
      | some child =>
          rw [hl] at h
          simp only [get_or_create_go, hl]
          rw [ih (path ++ [c]) h]
          show some (setChildRaw t c child, n) = some (t, n)
          rw [setChildRaw_self hl]

theorem goc_getComps {comps : List String} :
    ∀ {t t2 nd : RealAccount} {path : List String},
      get_or_create_go t comps path = some (t2, nd) → getComps t2 comps = some nd := by
  induction comps with
  | nil =>
      intro t t2 nd path h
      simp only [get_or_create_go, Option.some.injEq, Prod.mk.injEq] at h
      obtain ⟨h1, h2⟩ := h
      subst h1
      subst h2
      rfl
  | cons c rest ih =>
      intro t t2 nd path h
      cases hl : lookupChild t c with
      | some child =>
          simp only [get_or_create_go, hl] at h
          cases hrec : get_or_create_go child rest (path ++ [c]) with
          | none => rw [hrec] at h; cases h
          | some pr =>
              obtain ⟨child2, nd'⟩ := pr
              rw [hrec] at h
              simp only [Option.some.injEq, Prod.mk.injEq] at h
              obtain ⟨h1, h2⟩ := h
              subst h1
              subst h2
              simp only [getComps, lookupChild_setChildRaw, if_pos rfl]
              exact ih hrec
      | none =>
          simp only [get_or_create_go, hl] at h
          by_cases hc : c = ""
          · rw [if_pos hc] at h; cases h
          · rw [if_neg hc] at h
            cases hrec : get_or_create_go (RealAccount.mk (joinName (path ++ [c])) [] {} [])
                rest (path ++ [c]) with
            | none => rw [hrec] at h; cases h
            | some pr =>
                obtain ⟨child2, nd'⟩ := pr
                rw [hrec] at h
                simp only [Option.some.injEq, Prod.mk.injEq] at h
                obtain ⟨h1, h2⟩ := h
                subst h1
                subst h2
                simp only [getComps, lookupChild_setChildRaw, if_pos rfl]
                exact ih hrec

theorem goc_success {comps : List String} :
    ∀ (t : RealAccount) (path : List String), (∀ c ∈ comps, c ≠ "") →
      ∃ r, get_or_create_go t comps path = some r := by
  induction comps with
  | nil => intro t path _; exact ⟨(t, t), rfl⟩
  | cons c rest ih =>
      intro t path hwf
      cases hl : lookupChild t c with
      | some child =>
          obtain ⟨⟨child2, nd⟩, hr⟩ :=
            ih child (path ++ [c]) (fun x hx => hwf x (List.mem_cons_of_mem c hx))
          refine ⟨(setChildRaw t c child2, nd), ?_⟩
          simp only [get_or_create_go, hl]
          rw [hr]
      | none =>
          have hc : c ≠ "" := hwf c (List.mem_cons_self c rest)
          obtain ⟨⟨child2, nd⟩, hr⟩ :=
            ih (RealAccount.mk (joinName (path ++ [c])) [] {} [])
              (path ++ [c]) (fun x hx => hwf x (List.mem_cons_of_mem c hx))
          refine ⟨(setChildRaw t c child2, nd), ?_⟩
          simp only [get_or_create_go, hl, if_neg hc]
          rw [hr]

theorem goc_frame {comps : List String} :
    ∀ {t t2 nd : RealAccount} {path : List String},
      get_or_create_go t comps path = some (t2, nd) →
      ∀ {p : List String} {m : RealAccount}, getComps t p = some m →
      ∃ m2, getComps t2 p = some m2 ∧ m2.account = m.account ∧
        m2.postings = m.postings ∧ m2.balance = m.balance := by
  induction comps with
  | nil =>
      intro t t2 nd path h p m hp
      simp only [get_or_create_go, Option.some.injEq, Prod.mk.injEq] at h
      obtain ⟨h1, h2⟩ := h
      subst h1
      exact ⟨m, hp, rfl, rfl, rfl⟩
  | cons c rest ih =>
      intro t t2 nd path h p m hp
      cases hl : lookupChild t c with
      | some child =>
          simp only [get_or_create_go, hl] at h
          cases hrec : get_or_create_go child rest (path ++ [c]) with
          | none => rw [hrec] at h; cases h
          | some pr =>
              obtain ⟨child2, nd'⟩ := pr
              rw [hrec] at h
              simp only [Option.some.injEq, Prod.mk.injEq] at h
              obtain ⟨h1, h2⟩ := h
              subst h1
              cases p with
              | nil =>
                  simp only [getComps, Option.some.injEq] at hp
                  subst hp
                  exact ⟨_, rfl, rfl, rfl, rfl⟩
              | cons c1 p' =>
                  simp only [getComps] at hp ⊢
                  by_cases hc1 : c1 = c
                  · subst hc1
                    rw [hl] at hp
                    rw [lookupChild_setChildRaw, if_pos rfl]
                    exact ih hrec hp
                  · cases hl1 : lookupChild t c1 with
                    | none => rw [hl1] at hp; cases hp
                    | some child1 =>
                        rw [hl1] at hp
                        rw [lookupChild_setChildRaw, if_neg hc1, hl1]
                        exact ⟨m, hp, rfl, rfl, rfl⟩
      | none =>
          simp only [get_or_create_go, hl] at h
          by_cases hc : c = ""
          · rw [if_pos hc] at h; cases h
          · rw [if_neg hc] at h
            cases hrec : get_or_create_go (RealAccount.mk (joinName (path ++ [c])) [] {} [])
                rest (path ++ [c]) with
            | none => rw [hrec] at h; cases h
            | some pr =>
                obtain ⟨child2, nd'⟩ := pr
                rw [hrec] at h
                simp only [Option.some.injEq, Prod.mk.injEq] at h
                obtain ⟨h1, h2⟩ := h
                subst h1
                cases p with
                | nil =>
                    simp only [getComps, Option.some.injEq] at hp
                    subst hp
                    exact ⟨_, rfl, rfl, rfl, rfl⟩
                | cons c1 p' =>
                    simp only [getComps] at hp ⊢
                    by_cases hc1 : c1 = c
                    · subst hc1
                      rw [hl] at hp
                      cases hp
                    · cases hl1 : lookupChild t c1 with
                      | none => rw [hl1] at hp; cases hp
                      | some child1 =>
                          rw [hl1] at hp
                          rw [lookupChild_setChildRaw, if_neg hc1, hl1]
                          exact ⟨m, hp, rfl, rfl, rfl⟩

theorem splitName_ne_nil (s : String) : splitName s ≠ [] := by
  unfold splitName
  intro h
  exact List.splitOnP_ne_nil _ _ (by simpa using h)

theorem namedFrom_child {t child : RealAccount} {path : List String} {c : String}
    (hnf : NamedFrom t path) (hl : lookupChild t c = some child) :
    NamedFrom child (path ++ [c]) := by
  intro p n hp hne
  have h1 : getComps t (c :: p) = some n := by
    simp only [getComps, hl]
    exact hp
  have := hnf (c :: p) n h1 (by simp)
  rw [this, List.append_assoc]
  simp

theorem goc_account {comps : List String} :
    ∀ {t t2 nd : RealAccount} {path : List String}, comps ≠ [] →
      NamedFrom t path → get_or_create_go t comps path = some (t2, nd) →
      nd.account = joinName (path ++ comps) := by
  induction comps with
  | nil => intro t t2 nd path h; exact absurd rfl h
  | cons c rest ih =>
      intro t t2 nd path _ hnf h
      cases hl : lookupChild t c with
      | some child =>
          simp only [get_or_create_go, hl] at h
          cases hrec : get_or_create_go child rest (path ++ [c]) with
          | none => rw [hrec] at h; cases h
          | some pr =>
              obtain ⟨child2, nd'⟩ := pr
              rw [hrec] at h
              simp only [Option.some.injEq, Prod.mk.injEq] at h
              obtain ⟨h1, h2⟩ := h
              subst h2
              by_cases hre : rest = []
              · subst hre
                simp only [get_or_create_go, Option.some.injEq, Prod.mk.injEq] at hrec
                obtain ⟨hc1, hc2⟩ := hrec
                subst hc2
                have := hnf [c] child (by simp [getComps, hl]) (by simp)
                simpa using this
              · have := ih hre (namedFrom_child hnf hl) hrec
                rw [this, List.append_assoc]
                simp
      | none =>
          simp only [get_or_create_go, hl] at h
          by_cases hc : c = ""
          · rw [if_pos hc] at h; cases h
          · rw [if_neg hc] at h
            cases hrec : get_or_create_go (RealAccount.mk (joinName (path ++ [c])) [] {} [])
                rest (path ++ [c]) with
            | none => rw [hrec] at h; cases h
            | some pr =>
                obtain ⟨child2, nd'⟩ := pr
                rw [hrec] at h
                simp only [Option.some.injEq, Prod.mk.injEq] at h
                obtain ⟨h1, h2⟩ := h
                subst h2
                by_cases hre : rest = []
                · subst hre
                  simp only [get_or_create_go, Option.some.injEq, Prod.mk.injEq] at hrec
                  obtain ⟨hc1, hc2⟩ := hrec
                  subst hc2
                  rfl
                · have hfresh : NamedFrom
                      (RealAccount.mk (joinName (path ++ [c])) [] {} []) (path ++ [c]) := by
                    intro p n hp hne
                    cases p with
                    | nil => exact absurd rfl hne
                    | cons x xs =>
                        simp only [getComps, lookupChild, RealAccount.children,
                          List.find?_nil, Option.map_none] at hp
                        cases hp
                  have := ih hre hfresh hrec
                  rw [this, List.append_assoc]
                  simp

theorem namedFrom_leaf (a : String) (ps : List Pe) (bal : Inventory)
    (path : List String) : NamedFrom (.mk a ps bal []) path := by
  intro p n hp hne
  cases p with
  | nil => exact absurd rfl hne
  | cons x xs =>
      simp only [getComps, lookupChild, RealAccount.children, List.find?_nil,
        Option.map_none] at hp
      cases hp

theorem mem_allNodesChildren {n c : RealAccount} {k : String}
    {cs : List (String × RealAccount)} (hn : n ∈ allNodes c) (hm : (k, c) ∈ cs) :
    n ∈ allNodesChildren cs := by
  induction cs with
  | nil => cases hm
  | cons hd tl ih =>
      obtain ⟨k1, c1⟩ := hd
      rcases List.mem_cons.mp hm with h | h
      · rw [Prod.mk.injEq] at h
        obtain ⟨h1, h2⟩ := h
        subst h2
        simp only [allNodesChildren, List.mem_append]
        exact Or.inl hn
      · simp only [allNodesChildren, List.mem_append]
        exact Or.inr (ih h)

theorem mem_of_lookupChild {t child : RealAccount} {c : String}
    (hl : lookupChild t c = some child) : (c, child) ∈ t.children := by
  unfold lookupChild at hl
  cases hf : t.children.find? (fun pr => pr.1 = c) with
  | none => rw [hf] at hl; cases hl
  | some pr =>
      rw [hf] at hl
      have h1 : pr.1 = c := by simpa using List.find?_some hf
      have h2 : pr.2 = child := by simpa using hl
      have := List.mem_of_find?_eq_some hf
      rw [← h1, ← h2]
      exact this

theorem allNodes_child_subset {t child n : RealAccount} {c : String}
    (hl : lookupChild t c = some child) (hn : n ∈ allNodes child) :
    n ∈ allNodes t := by
  obtain ⟨a, ps, bal, cs⟩ := t
  have hm := mem_of_lookupChild hl
  simp only [RealAccount.children] at hm
  simp only [allNodes, List.mem_cons]
  exact Or.inr (mem_allNodesChildren hn hm)

theorem self_mem_allNodes (t : RealAccount) : t ∈ allNodes t := by
  obtain ⟨a, ps, bal, cs⟩ := t
  simp [allNodes]

theorem getComps_mem_allNodes {p : List String} :
    ∀ {t n : RealAccount}, getComps t p = some n → n ∈ allNodes t := by
  induction p with
  | nil =>
      intro t n h
      simp only [getComps, Option.some.injEq] at h
      subst h
      exact self_mem_allNodes _
  | cons c p' ih =>
      intro t n h
      simp only [getComps] at h
      cases hl : lookupChild t c with
      | none => rw [hl] at h; cases h
      | some child =>
          rw [hl] at h
          exact allNodes_child_subset hl (ih h)

theorem mem_dictInsert {pr : String × RealAccount} {cs : List (String × RealAccount)}
    {k : String} {v : RealAccount} (h : pr ∈ dictInsert cs k v) :
    pr ∈ cs ∨ pr = (k, v) := by
  induction cs with
  | nil => simpa [dictInsert] using h
  | cons hd tl ih =>
      obtain ⟨k1, v1⟩ := hd
      by_cases h1 : k1 = k
      · simp only [dictInsert, if_pos h1, List.mem_cons] at h
        rcases h with h | h
        · exact Or.inr h
        · exact Or.inl (List.mem_cons_of_mem _ h)
      · simp only [dictInsert, if_neg h1, List.mem_cons] at h
        rcases h with h | h
        · exact Or.inl (h ▸ List.mem_cons_self _ _)
        · rcases ih h with h2 | h2
          · exact Or.inl (List.mem_cons_of_mem _ h2)
          · exact Or.inr h2

theorem mem_allNodesChildren_dictInsert {n : RealAccount}
    {cs : List (String × RealAccount)} {k : String} {v : RealAccount}
    (h : n ∈ allNodesChildren (dictInsert cs k v)) :
    n ∈ allNodesChildren cs ∨ n ∈ allNodes v := by
  induction cs with
  | nil =>
      simp only [dictInsert, allNodesChildren, List.append_nil] at h
      exact Or.inr h
  | cons hd tl ih =>
      obtain ⟨k1, v1⟩ := hd
      by_cases h1 : k1 = k
      · simp only [dictInsert, if_pos h1, allNodesChildren, List.mem_append] at h
        rcases h with h | h
        · exact Or.inr h
        · exact Or.inl (by simp only [allNodesChildren, List.mem_append]; exact Or.inr h)
      · simp only [dictInsert, if_neg h1, allNodesChildren, List.mem_append] at h
        rcases h with h | h
        · exact Or.inl (by simp only [allNodesChildren, List.mem_append]; exact Or.inl h)
        · rcases ih h with h2 | h2
          · exact Or.inl (by simp only [allNodesChildren, List.mem_append]; exact Or.inr h2)
          · exact Or.inr h2

theorem nek_setChildRaw {t v : RealAccount} {k : String} (ht : NoEmptyKeys t)
    (hv : NoEmptyKeys v) (hk : k ≠ "") : NoEmptyKeys (setChildRaw t k v) := by
  obtain ⟨a, ps, bal, cs⟩ := t
  intro n hn pr hpr
  simp only [setChildRaw, allNodes, List.mem_cons] at hn
  rcases hn with h | h
  · subst h
    simp only [RealAccount.children] at hpr
    rcases mem_dictInsert hpr with h2 | h2
    · exact ht (RealAccount.mk a ps bal cs) (by simp [allNodes]) pr
        (by simpa [RealAccount.children] using h2)
    · rw [h2]
      exact hk
  · rcases mem_allNodesChildren_dictInsert h with h2 | h2
    · refine ht n ?_ pr hpr
      simp only [allNodes, List.mem_cons]
      exact Or.inr h2
    · exact hv n h2 pr hpr

theorem nek_goc {comps : List String} :
    ∀ {t t2 nd : RealAccount} {path : List String}, NoEmptyKeys t →
      (∀ c ∈ comps, c ≠ "") → get_or_create_go t comps path = some (t2, nd) →
      NoEmptyKeys t2 := by
  induction comps with
  | nil =>
      intro t t2 nd path ht _ h
      simp only [get_or_create_go, Option.some.injEq, Prod.mk.injEq] at h
      obtain ⟨h1, h2⟩ := h
      subst h1
      exact ht
  | cons c rest ih =>
      intro t t2 nd path ht hwf h
      have hc : c ≠ "" := hwf c (List.mem_cons_self c rest)
      cases hl : lookupChild t c with
      | some child =>
          simp only [get_or_create_go, hl] at h
          cases hrec : get_or_create_go child rest (path ++ [c]) with
          | none => rw [hrec] at h; cases h
          | some pr =>
              obtain ⟨child2, nd'⟩ := pr
              rw [hrec] at h
              simp only [Option.some.injEq, Prod.mk.injEq] at h
              obtain ⟨h1, h2⟩ := h
              subst h1
              have hchild : NoEmptyKeys child :=
                fun n hn pr hpr => ht n (allNodes_child_subset hl hn) pr hpr
              exact nek_setChildRaw ht
                (ih hchild (fun x hx => hwf x (List.mem_cons_of_mem c hx)) hrec) hc
      | none =>
          simp only [get_or_create_go, hl, if_neg hc] at h
          cases hrec : get_or_create_go (RealAccount.mk (joinName (path ++ [c])) [] {} [])
              rest (path ++ [c]) with
          | none => rw [hrec] at h; cases h
          | some pr =>
              obtain ⟨child2, nd'⟩ := pr
              rw [hrec] at h
              simp only [Option.some.injEq, Prod.mk.injEq] at h
              obtain ⟨h1, h2⟩ := h
              subst h1
              have hfresh : NoEmptyKeys (RealAccount.mk (joinName (path ++ [c])) [] {} []) := by
                intro n hn pr hpr
                simp only [allNodes, allNodesChildren, List.mem_cons] at hn
                rcases hn with h3 | h3
                · subst h3
                  simp only [RealAccount.children] at hpr
                  cases hpr
                · cases h3
              exact nek_setChildRaw ht
                (ih hfresh (fun x hx => hwf x (List.mem_cons_of_mem c hx)) hrec) hc

theorem lookup_empty_of_nek {t n : RealAccount} {p : List String}
    (hnek : NoEmptyKeys t) (h : getComps t p = some n) :
    lookupChild n "" = none := by
  have hn := getComps_mem_allNodes h
  unfold lookupChild
  have hf : n.children.find? (fun pr => pr.1 = "") = none := by
    rw [List.find?_eq_none]
    intro pr hpr
    simpa using hnek n hn pr hpr
  rw [hf]
  rfl

/-! ### Sample trees used by the concrete witnesses -/

/-! ### Claims C7 to C10 -/

/-- Claim C10: when the full component path of A already exists in the
tree, get_or_create performs no mutation at all: the returned tree is the
input tree itself, so every existing node's postings list, balance, and
child map are unchanged.  Moreover any get_or_create (in particular the
min_accounts step of realize) preserves the existence, postings and
balance of every node already present, so that step never clears or
replaces the postings or balance of an account that already received
postings. -/
theorem claim_C10_get_or_create_no_mutation :
    (∀ (t : RealAccount) (A : String) (n : RealAccount),
        getComps t (splitName A) = some n → get_or_create t A = some (t, n)) ∧
    (∀ (t : RealAccount) (A : String) (t2 nd : RealAccount),
        get_or_create t A = some (t2, nd) →
        ∀ (p : List String) (m : RealAccount), getComps t p = some m →
          ∃ m2, getComps t2 p = some m2 ∧ m2.postings = m.postings ∧
            m2.balance = m.balance) := by
  constructor
  · intro t A n h
    exact goc_of_getComps [] h
  · intro t A t2 nd h p m hp
    obtain ⟨m2, h1, _, h2, h3⟩ := goc_frame h hp
    exact ⟨m2, h1, h2, h3⟩

/-- Witness for C10 at a concrete tree: an existing path is returned
without mutation, and creating a sibling preserves the data of an existing
node. -/
theorem claim_C10_witness :
    (getComps TA (splitName "Assets:Checking") = some ndChecking ∧
      get_or_create TA "Assets:Checking" = some (TA, ndChecking)) ∧
    (get_or_create TA "Equity" = some (TAE, .mk "Equity" [] {} []) ∧
      ∃ m2, getComps TAE ["Assets"] = some m2 ∧ m2.postings = ndAssets.postings ∧
        m2.balance = ndAssets.balance) :=
  ⟨⟨rfl, claim_C10_get_or_create_no_mutation.1 TA "Assets:Checking" ndChecking rfl⟩,
    ⟨rfl, claim_C10_get_or_create_no_mutation.2 TA "Equity" TAE (.mk "Equity" [] {} [])
      rfl ["Assets"] ndAssets rfl⟩⟩

/-- Counterexample to C7 as stated: a root node whose child was legally
inserted under key 'Assets' with account name 'Foo:Assets' (the __setitem__
suffix check accepts it) makes get_or_create(root, 'Assets') return a node
whose account attribute is not 'Assets'. -/
theorem claim_C7_counterexample :
    (get_or_create badT "Assets").map (fun pr => pr.2.account) = some "Foo:Assets" ∧
      ("Foo:Assets" : String) ≠ "Assets" := by
  exact ⟨rfl, by decide⟩

/-- Claim C7 (amended): for every root node satisfying the naming invariant
(each node at a nonempty path p is named joinName p, as in every tree this
module builds) and every well-formed account name A, get_or_create returns
a node whose account attribute equals A, and a second call returns the
identical tree and node, creating no duplicate. -/
theorem claim_C7_get_or_create_account :
    ∀ (t : RealAccount) (A : String), NamedFrom t [] → WFName A →
      ∃ t2 nd, get_or_create t A = some (t2, nd) ∧ nd.account = A ∧
        get_or_create t2 A = some (t2, nd) := by
  intro t A hnf hwf
  obtain ⟨⟨t2, nd⟩, h⟩ := goc_success t [] hwf
  refine ⟨t2, nd, h, ?_, ?_⟩
  · have := goc_account (splitName_ne_nil A) hnf h
    simpa [joinName_splitName] using this
  · exact goc_of_getComps [] (goc_getComps h)

/-- Witness for C7 (amended) at the empty root and a two-segment name. -/
theorem claim_C7_witness :
    NamedFrom RA0 [] ∧ WFName "Assets:Checking" ∧
      ∃ t2 nd, get_or_create RA0 "Assets:Checking" = some (t2, nd) ∧
        nd.account = "Assets:Checking" ∧
        get_or_create t2 "Assets:Checking" = some (t2, nd) :=
  ⟨namedFrom_leaf _ _ _ _,
    show ∀ c ∈ splitName "Assets:Checking", c ≠ "" from by decide,
    claim_C7_get_or_create_account RA0 "Assets:Checking" (namedFrom_leaf _ _ _ _)
      (show ∀ c ∈ splitName "Assets:Checking", c ≠ "" from by decide)⟩

/-- Counterexample to C8 as stated: get(get_or_create(root, 'Assets'), '')
is None, not the node itself: '' splits into a single empty component and
the node has no child stored under the empty key. -/
theorem claim_C8_counterexample :
    (get_or_create RA0 "Assets").isSome = true ∧
      ((get_or_create RA0 "Assets").bind (fun pr => get pr.2 "")) = none :=
  ⟨rfl, rfl⟩

/-- Claim C8 (amended): for every tree with no empty child keys (always the
case for trees this module builds) and well-formed A, get with the empty
account name on the node returned by get_or_create returns the default
none, because '' splits into one empty component, which is never a child
key; it does not return the node itself. -/
theorem claim_C8_get_empty_name :
    ∀ (t : RealAccount) (A : String) (t2 nd : RealAccount), NoEmptyKeys t →
      WFName A → get_or_create t A = some (t2, nd) → get nd "" = none := by
  intro t A t2 nd hnek hwf h
  have hnek2 : NoEmptyKeys t2 := nek_goc hnek hwf h
  have hnd := goc_getComps h
  have hl := lookup_empty_of_nek hnek2 hnd
  show getComps nd (splitName "") = none
  have hsp : splitName "" = [""] := rfl
  rw [hsp]
  simp [getComps, hl]

/-- Witness for C8 (amended) at the empty root. -/
theorem claim_C8_witness :
    NoEmptyKeys RA0 ∧ WFName "Assets" ∧ get ND8 "" = none :=
  ⟨show ∀ n ∈ allNodes RA0, ∀ pr ∈ n.children, pr.1 ≠ "" from by decide,
    show ∀ c ∈ splitName "Assets", c ≠ "" from by decide,
    claim_C8_get_empty_name RA0 "Assets" T8 ND8
      (show ∀ n ∈ allNodes RA0, ∀ pr ∈ n.children, pr.1 ≠ "" from by decide)
      (show ∀ c ∈ splitName "Assets", c ≠ "" from by decide) rfl⟩

/-- Counterexample to C9 as stated: the key 'A:B' is not a plain path
segment (it splits into two components), yet __setitem__ accepts it when
the child's account name ends with it, instead of failing. -/
theorem claim_C9_counterexample :
    (splitName "A:B").length = 2 ∧
      RA0.setitem "A:B" (RealAccount.mk "A:B" [] {} []) =
        .ok (setChildRaw RA0 "A:B" (RealAccount.mk "A:B" [] {} [])) :=
  ⟨rfl, rfl⟩

/-- Claim C9 (amended): __setitem__ fails with KeyError exactly on the
empty key (the non-string key and the non-RealAccount value cases are
type-level and unrepresentable here), fails with ValueError - not a
KeyError-class condition - when the child's account name does not end with
the key, and otherwise succeeds and stores the child under the key; a key
containing the separator is accepted. -/
theorem claim_C9_setitem :
    ∀ (t v : RealAccount) (key : String),
      (key = "" → t.setitem key v = .error (.keyError key)) ∧
      (key ≠ "" → endsWithStr v.account key = false →
        t.setitem key v = .error (.valueError v.account)) ∧
      (key ≠ "" → endsWithStr v.account key = true →
        t.setitem key v = .ok (setChildRaw t key v) ∧
        lookupChild (setChildRaw t key v) key = some v) := by
  intro t v key
  refine ⟨?_, ?_, ?_⟩
  · intro h
    simp [RealAccount.setitem, h]
  · intro h1 h2
    simp [RealAccount.setitem, h1, h2]
  · intro h1 h2
    refine ⟨by simp [RealAccount.setitem, h1, h2], ?_⟩
    rw [lookupChild_setChildRaw]
    simp

/-- Witness for C9 (amended): inserting the Assets:Checking node under the
key Checking succeeds and stores it. -/
theorem claim_C9_witness :
    (("Checking" : String) ≠ "" ∧
      endsWithStr (RealAccount.mk "Assets:Checking" [] {} []).account "Checking" = true) ∧
      (RA0.setitem "Checking" (RealAccount.mk "Assets:Checking" [] {} []) =
          .ok (setChildRaw RA0 "Checking" (RealAccount.mk "Assets:Checking" [] {} [])) ∧
        lookupChild (setChildRaw RA0 "Checking" (RealAccount.mk "Assets:Checking" [] {} []))
          "Checking" = some (RealAccount.mk "Assets:Checking" [] {} [])) :=
  ⟨⟨by decide, by decide⟩,
    (claim_C9_setitem RA0 (RealAccount.mk "Assets:Checking" [] {} []) "Checking").2.2
      (by decide) (by decide)⟩

/-- Claim C3: group_by_account maps each account name to exactly the list
of its contributions in stream order: each Posting of a Transaction goes to
its own account's list (the Transaction itself is never listed), each
Open/Close/Balance/Note/Document directive goes to its own account's list,
each Pad directive goes to both the source and the pad account's lists
(exactly two insertions), and any other directive kind is ignored. -/
theorem claim_C3_group_by_account :
    ∀ (entries : List Directive) (a : String),
      lookupList (group_by_account entries) a =
        (((entries.map contribOf).flatten).filter (fun pr => pr.1 = a)).map
          (fun pr => pr.2) := by
  intro entries a
  show lookupList (entries.foldl group_step []) a = _
  rw [lookupList_foldl_group]
  simp [lookupList]

/-! ### Lemmas about iterate_with_balance -/

theorem tot_empty (lot : Lot) : Inventory.tot {} lot = 0 := rfl

theorem tot_add_position (inv : Inventory) (pos : Position) (lot : Lot) :
    (inv.add_position pos).tot lot =
      inv.tot lot + (if pos.lot = lot then pos.number else 0) := by
  induction inv with
  | nil =>
      by_cases h : pos.lot = lot <;>
        simp [Inventory.add_position, Inventory.tot, h]
  | cons p rest ih =>
      by_cases h : p.lot = pos.lot
      · by_cases h2 : pos.lot = lot
        · simp [Inventory.add_position, Inventory.tot, h, h2] at *
          ring
        · have h3 : ¬ (p.lot = lot) := by rw [h]; exact h2
          simp [Inventory.add_position, Inventory.tot, h, h2, h3]
      · by_cases h2 : p.lot = lot
        · simp only [Inventory.add_position, if_neg h]
          simp only [Inventory.tot, List.map_cons, List.sum_cons, if_pos h2] at *
          rw [ih]
          ring
        · simp only [Inventory.add_position, if_neg h]
          simp only [Inventory.tot, List.map_cons, List.sum_cons, if_neg h2] at *
          rw [ih]
          ring

theorem lotSum_append (lot : Lot) (xs ys : List Posting) :
    lotSum lot (xs ++ ys) = lotSum lot xs + lotSum lot ys := by
  simp [lotSum]

theorem tot_foldl_add (ps : List Posting) (inv : Inventory) (lot : Lot) :
    (ps.foldl (fun b p => b.add_position p.position) inv).tot lot =
      inv.tot lot + lotSum lot ps := by
  induction ps generalizing inv with
  | nil => simp [lotSum]
  | cons p rest ih =>
      simp only [List.foldl_cons]
      rw [ih, tot_add_position]
      simp only [lotSum, List.map_cons, List.sum_cons, lotNum]
      ring

theorem flush_fst_tot (de : List (EKey × List Posting)) (bal : Inventory) (lot : Lot) :
    ((flush bal de).1).tot lot = bal.tot lot + lotSum lot (dePostings de) := by
  induction de generalizing bal with
  | nil => simp [flush, dePostings, lotSum]
  | cons hd tl ih =>
      obtain ⟨e, ps⟩ := hd
      simp only [flush]
      rw [ih, tot_foldl_add]
      simp [dePostings, lotSum_append, lotSum]
      ring

theorem flush_snd_eq_nil (de : List (EKey × List Posting)) (bal : Inventory) :
    (flush bal de).2 = [] ↔ de = [] := by
  cases de with
  | nil => simp [flush]
  | cons hd tl =>
      obtain ⟨e, ps⟩ := hd
      simp [flush]

theorem flush_last_balance (de : List (EKey × List Posting)) (bal : Inventory)
    (h : (flush bal de).2 ≠ []) :
    ((flush bal de).2.getLast h).balance = (flush bal de).1 := by
  induction de generalizing bal with
  | nil => exact absurd rfl h
  | cons hd tl ih =>
      obtain ⟨e, ps⟩ := hd
      by_cases htl : tl = []
      · subst htl
        simp [flush]
      · have h2 : (flush (ps.foldl (fun b p => b.add_position p.position) bal)
            tl).2 ≠ [] := by
          rw [ne_eq, flush_snd_eq_nil]
          exact htl
        simp only [flush]
        rw [List.getLast_cons h2]
        exact ih _ h2

theorem lotSum_dedupAppend (de : List (EKey × List Posting)) (e : EKey)
    (p : Posting) (lot : Lot) :
    lotSum lot (dePostings (dedupAppend de e p)) =
      lotSum lot (dePostings de) + lotNum lot p := by
  induction de with
  | nil => simp [dedupAppend, dePostings, lotSum]
  | cons hd tl ih =>
      obtain ⟨e1, ps⟩ := hd
      by_cases h : e1 = e
      · simp only [dedupAppend, if_pos h, dePostings, List.map_cons, List.flatten_cons]
        rw [lotSum_append, lotSum_append, lotSum_append]
        simp only [dePostings] at *
        simp [lotSum]
        ring
      · simp only [dedupAppend, if_neg h, dePostings, List.map_cons, List.flatten_cons]
        rw [lotSum_append, lotSum_append]
        simp only [dePostings] at ih
        rw [ih]
        ring

theorem lotSum_pushItem (de : List (EKey × List Posting)) (pe : Pe) (lot : Lot) :
    lotSum lot (dePostings (pushItem de pe)) =
      lotSum lot (dePostings de) + lotSum lot (pePostings [pe]) := by
  cases pe with
  | posting p =>
      simp only [pushItem]
      rw [lotSum_dedupAppend]
      simp [pePostings, lotSum]
  | dir d =>
      simp only [pushItem]
      simp [dePostings, pePostings, lotSum]

theorem pushItem_ne_nil (de : List (EKey × List Posting)) (pe : Pe) :
    pushItem de pe ≠ [] := by
  cases pe with
  | posting p =>
      show dedupAppend de (.txn p.entry) p ≠ []
      cases de with
      | nil => simp [dedupAppend]
      | cons hd tl =>
          obtain ⟨e1, ps⟩ := hd
          by_cases h : e1 = EKey.txn p.entry <;> simp [dedupAppend, h]
  | dir d => simp [pushItem]

theorem pePostings_cons (pe : Pe) (rest : List Pe) :
    pePostings (pe :: rest) = pePostings [pe] ++ pePostings rest := by
  cases pe <;> simp [pePostings]

theorem pePostings_map_posting (ps : List Posting) :
    pePostings (ps.map Pe.posting) = ps := by
  induction ps with
  | nil => rfl
  | cons p rest ih =>
      show p :: pePostings (rest.map Pe.posting) = p :: rest
      rw [ih]

theorem iwbGo_isSome_iff :
    ∀ (l : List Pe) (bal : Inventory) (pd : Option ℕ)
      (de : List (EKey × List Posting)),
      (iwbGo bal pd de l).isSome = true ↔ DatesOK pd l := by
  intro l
  induction l with
  | nil => intro bal pd de; simp [iwbGo, DatesOK]
  | cons pe rest ih =>
      intro bal pd de
      by_cases hd : some (peKey pe).date = pd
      · simp only [iwbGo, if_pos hd]
        rw [ih]
        show DatesOK pd rest ↔ DatesOK pd (pe :: rest)
        rw [← hd]
        show DatesOK (some (peKey pe).date) rest ↔
          (peKey pe).date ≤ peDate pe ∧ DatesOK (some (peDate pe)) rest
        unfold peDate
        simp
      · simp only [iwbGo, if_neg hd]
        cases pd with
        | none =>
            cases hrec : iwbGo (flush bal de).1 (some (peKey pe).date)
                (pushItem [] pe) rest with
            | none =>
                have := (ih (flush bal de).1 (some (peKey pe).date) (pushItem [] pe))
                rw [hrec] at this
                simp only [Option.isSome_none, Bool.false_eq_true, false_iff] at this
                simp only [hrec]
                show (Option.none).isSome = true ↔ DatesOK none (pe :: rest)
                simp only [Option.isSome_none, Bool.false_eq_true, false_iff]
                intro hds
                obtain ⟨h1, h2⟩ := hds
                exact this (by simpa [peDate] using h2)
            | some out =>
                have := (ih (flush bal de).1 (some (peKey pe).date) (pushItem [] pe))
                rw [hrec] at this
                simp only [Option.isSome_some, true_iff] at this
                simp only [hrec]
                show (some ((flush bal de).2 ++ out)).isSome = true ↔
                  DatesOK none (pe :: rest)
                simp only [Option.isSome_some, true_iff]
                exact ⟨trivial, by simpa [peDate] using this⟩
        | some p =>
            by_cases hlt : p < (peKey pe).date
            · simp only [if_pos hlt]
              cases hrec : iwbGo (flush bal de).1 (some (peKey pe).date)
                  (pushItem [] pe) rest with
              | none =>
                  have := (ih (flush bal de).1 (some (peKey pe).date) (pushItem [] pe))
                  rw [hrec] at this
                  simp only [Option.isSome_none, Bool.false_eq_true, false_iff] at this
                  simp only [hrec]
                  show (Option.none).isSome = true ↔ DatesOK (some p) (pe :: rest)
                  simp only [Option.isSome_none, Bool.false_eq_true, false_iff]
                  intro hds
                  obtain ⟨h1, h2⟩ := hds
                  exact this (by simpa [peDate] using h2)
              | some out =>
                  have := (ih (flush bal de).1 (some (peKey pe).date) (pushItem [] pe))
                  rw [hrec] at this
                  simp only [Option.isSome_some, true_iff] at this
                  simp only [hrec]
                  show (some ((flush bal de).2 ++ out)).isSome = true ↔
                    DatesOK (some p) (pe :: rest)
                  simp only [Option.isSome_some, true_iff]
                  exact ⟨by simpa [peDate] using le_of_lt hlt,
                    by simpa [peDate] using this⟩
            · simp only [if_neg hlt]
              show (Option.none).isSome = true ↔ DatesOK (some p) (pe :: rest)
              simp only [Option.isSome_none, Bool.false_eq_true, false_iff]
              intro hds
              obtain ⟨h1, h2⟩ := hds
              have hne : (peKey pe).date ≠ p := fun he => hd (by rw [he])
              have : p ≤ (peKey pe).date := by simpa [peDate] using h1
              omega

theorem iwbGo_spec :
    ∀ (l : List Pe) (bal : Inventory) (pd : Option ℕ)
      (de : List (EKey × List Posting)), DatesOK pd l →
      ∃ out, iwbGo bal pd de l = some out ∧
        (out = [] ↔ (de = [] ∧ l = [])) ∧
        ∀ (h : out ≠ []) (lot : Lot),
          ((out.getLast h).balance).tot lot =
            bal.tot lot + lotSum lot (dePostings de) + lotSum lot (pePostings l) := by
  intro l
  induction l with
  | nil =>
      intro bal pd de _
      refine ⟨(flush bal de).2, rfl, by simp [flush_snd_eq_nil], ?_⟩
      intro h lot
      rw [flush_last_balance de bal h, flush_fst_tot]
      simp [pePostings, lotSum]
  | cons pe rest ih =>
      intro bal pd de hdok
      obtain ⟨hpd, hrest⟩ := hdok
      by_cases hd : some (peKey pe).date = pd
      · obtain ⟨out, heq, hiff, hlast⟩ :=
          ih bal pd (pushItem de pe) (by rw [← hd]; exact (by simpa [peDate] using hrest))
        refine ⟨out, ?_, ?_, ?_⟩
        · simp only [iwbGo, if_pos hd]
          exact heq
        · constructor
          · intro h
            exact absurd (hiff.mp h).1 (pushItem_ne_nil de pe)
          · intro h
            exact absurd h.2 (by simp)
        · intro h lot
          rw [hlast h lot, lotSum_pushItem]
          cases pe <;> simp [pePostings, lotSum] <;> ring
      · obtain ⟨out, heq, hiff, hlast⟩ :=
          ih (flush bal de).1 (some (peDate pe)) (pushItem [] pe) hrest
        have hout : out ≠ [] := by
          intro h
          exact absurd (hiff.mp h).1 (pushItem_ne_nil [] pe)
        have hmain : iwbGo bal pd de (pe :: rest) = some ((flush bal de).2 ++ out) := by
          cases pd with
          | none =>
              simp only [iwbGo, if_neg hd]
              rw [show some (peDate pe) = some ((peKey pe).date) from rfl] at heq
              rw [heq]
          | some p =>
              have hple : p ≤ peDate pe := by simpa using hpd
              have hne : (peKey pe).date ≠ p := fun he => hd (by rw [he])
              have hlt : p < (peKey pe).date := by
                have : p ≤ (peKey pe).date := by simpa [peDate] using hple
                omega
              simp only [iwbGo, if_neg hd, if_pos hlt]
              rw [show some (peDate pe) = some ((peKey pe).date) from rfl] at heq
              rw [heq]
        refine ⟨(flush bal de).2 ++ out, hmain, ?_, ?_⟩
        · constructor
          · intro h
            exact absurd (List.append_eq_nil.mp h).2 hout
          · intro h
            exact absurd h.2 (by simp)
        · intro h lot
          rw [List.getLast_append' _ _ hout, hlast hout lot, flush_fst_tot,
            lotSum_pushItem]
          cases pe <;> simp [pePostings, dePostings, lotSum] <;> ring

theorem datesOK_chain {l : List Pe} :
    ∀ {pd : Option ℕ}, DatesOK pd l →
      List.Chain' (fun x y => peDate x ≤ peDate y) l := by
  induction l with
  | nil => intro pd _; simp
  | cons pe rest ih =>
      intro pd hdok
      obtain ⟨hpd, hrest⟩ := hdok
      rw [List.chain'_cons']
      refine ⟨?_, ih hrest⟩
      intro y hy
      cases rest with
      | nil => simp at hy
      | cons z zs =>
          simp only [List.head?_cons, Option.mem_def, Option.some.injEq] at hy
          subst hy
          exact hrest.1

theorem chain_datesOK_aux (l : List Pe) :
    ∀ (x : Pe), List.Chain' (fun a b => peDate a ≤ peDate b) (x :: l) →
      DatesOK (some (peDate x)) l := by
  induction l with
  | nil => intro x _; trivial
  | cons y ys ih =>
      intro x h
      rw [List.chain'_cons] at h
      exact ⟨h.1, ih y h.2⟩

theorem chain_datesOK {l : List Pe}
    (h : List.Chain' (fun a b => peDate a ≤ peDate b) l) : DatesOK none l := by
  cases l with
  | nil => trivial
  | cons x xs => exact ⟨trivial, chain_datesOK_aux xs x h⟩

/-- Claim C5: iterate_with_balance fails (raises the ordering assertion,
rendered as none) on any input containing an out-of-order pair of entries
(a later entry with a strictly smaller date), and succeeds whenever the
dates are non-decreasing, so in particular equal consecutive dates do not
fail. -/
theorem claim_C5_date_order :
    (∀ (l : List Pe) (i j : ℕ) (hi : i < l.length) (hj : j < l.length),
        i < j → peDate (l.get ⟨j, hj⟩) < peDate (l.get ⟨i, hi⟩) →
        iterate_with_balance l = none) ∧
    (∀ (l : List Pe), List.Chain' (fun x y => peDate x ≤ peDate y) l →
        (iterate_with_balance l).isSome = true) := by
  constructor
  · intro l i j hi hj hij hdec
    cases hiwb : iterate_with_balance l with
    | none => rfl
    | some out =>
        have hs : (iterate_with_balance l).isSome = true := by rw [hiwb]; rfl
        have hdok : DatesOK none l := (iwbGo_isSome_iff l {} none []).mp hs
        have hchain := datesOK_chain hdok
        haveI : IsTrans Pe (fun x y => peDate x ≤ peDate y) :=
          ⟨fun a b c h1 h2 => le_trans h1 h2⟩
        have hpw := List.chain'_iff_pairwise.mp hchain
        have hle := List.pairwise_iff_get.mp hpw ⟨i, hi⟩ ⟨j, hj⟩ hij
        omega
  · intro l hchain
    exact (iwbGo_isSome_iff l {} none []).mpr (chain_datesOK hchain)

/-- Witness for C5: a two-item list with decreasing dates fails; a two-item
list with equal dates succeeds. -/
theorem claim_C5_witness :
    ((0 : ℕ) < 1 ∧
      peDate (Pe.dir (.opn 3 "B")) < peDate (Pe.dir (.opn 5 "A")) ∧
      iterate_with_balance [.dir (.opn 5 "A"), .dir (.opn 3 "B")] = none) ∧
    (List.Chain' (fun x y => peDate x ≤ peDate y)
        [Pe.dir (.opn 5 "A"), Pe.dir (.opn 5 "B")] ∧
      (iterate_with_balance [.dir (.opn 5 "A"), .dir (.opn 5 "B")]).isSome = true) :=
  ⟨⟨by decide, by decide,
      claim_C5_date_order.1 [.dir (.opn 5 "A"), .dir (.opn 3 "B")] 0 1
        (by decide) (by decide) (by decide) (by decide)⟩,
    ⟨List.chain'_pair.mpr (by decide),
      claim_C5_date_order.2 [.dir (.opn 5 "A"), .dir (.opn 5 "B")]
        (List.chain'_pair.mpr (by decide))⟩⟩

/-- Claim C2: for a chronologically sorted list of postings of one entry
stream, iterate_with_balance succeeds, yields a nonempty sequence when the
input is nonempty, and the balance of the last yielded tuple holds, at
every lot, exactly the total obtained by folding every posting's position
(allow_negative = true) into a fresh Inventory - equivalently the plain sum
of the postings' numbers on that lot, which counts each posting exactly
once (also when several postings belong to the same transaction and date)
and is independent of order. -/
theorem claim_C2_final_balance :
    ∀ (ps : List Posting),
      List.Chain' (fun x y : Posting => x.entry.date ≤ y.entry.date) ps →
      ∃ out, iterate_with_balance (ps.map Pe.posting) = some out ∧
        (ps ≠ [] → ∃ h : out ≠ [], ∀ lot : Lot,
          ((out.getLast h).balance).tot lot =
            (ps.foldl (fun (b : Inventory) p => b.add_position p.position) {}).tot lot ∧
          ((out.getLast h).balance).tot lot = lotSum lot ps) := by
  intro ps hchain
  have hchain2 : List.Chain' (fun x y => peDate x ≤ peDate y) (ps.map Pe.posting) := by
    rw [List.chain'_map]
    exact hchain
  have hdok : DatesOK none (ps.map Pe.posting) := chain_datesOK hchain2
  obtain ⟨out, heq, hiff, hlast⟩ := iwbGo_spec (ps.map Pe.posting) {} none [] hdok
  refine ⟨out, heq, ?_⟩
  intro hne
  have hout : out ≠ [] := by
    intro h
    obtain ⟨_, h2⟩ := hiff.mp h
    exact hne (by simpa using h2)
  refine ⟨hout, ?_⟩
  intro lot
  have h1 : ((out.getLast hout).balance).tot lot = lotSum lot ps := by
    rw [hlast hout lot, pePostings_map_posting]
    simp [dePostings, lotSum, tot_empty]
  refine ⟨?_, h1⟩
  rw [h1, tot_foldl_add, tot_empty]
  ring

/-! ### The scenario of the spec: two opens and one transaction -/

/-- Witness for C2: the scenario transaction's two postings, flattened onto
one account stream with equal dates. -/
theorem claim_C2_witness :
    List.Chain' (fun x y : Posting => x.entry.date ≤ y.entry.date) [scP1, scP2] ∧
      ∃ out, iterate_with_balance ([scP1, scP2].map Pe.posting) = some out ∧
        ([scP1, scP2] ≠ [] → ∃ h : out ≠ [], ∀ lot : Lot,
          ((out.getLast h).balance).tot lot =
            ([scP1, scP2].foldl (fun (b : Inventory) p =>
              b.add_position p.position) {}).tot lot ∧
          ((out.getLast h).balance).tot lot = lotSum lot [scP1, scP2]) :=
  ⟨List.chain'_pair.mpr (by decide),
    claim_C2_final_balance [scP1, scP2] (List.chain'_pair.mpr (by decide))⟩

/-! ### Claim C1: realize -/

theorem realize_fold_spec :
    ∀ (items : List (String × List Pe)) (t root : RealAccount),
      items.foldlM realize_step t = some root →
      (items.map Prod.fst).Nodup →
      ((∀ a ps, (a, ps) ∈ items →
          ∃ n, getComps root (splitName a) = some n ∧ n.postings = ps ∧
            n.balance = compute_postings_balance ps) ∧
       (∀ p m, getComps t p = some m →
          (∀ a ∈ items.map Prod.fst, p ≠ splitName a) →
          ∃ m2, getComps root p = some m2 ∧ m2.postings = m.postings ∧
            m2.balance = m.balance)) := by
  intro items
  induction items with
  | nil =>
      intro t root h _
      have ht : t = root := by simpa using h
      subst ht
      exact ⟨fun a ps hmem => absurd hmem (List.not_mem_nil _),
        fun p m hp _ => ⟨m, hp, rfl, rfl⟩⟩
  | cons hd rest ih =>
      obtain ⟨a, ps⟩ := hd
      intro t root h hnd
      simp only [List.foldlM_cons] at h
      cases hstep : realize_step t (a, ps) with
      | none => rw [hstep] at h; simp [Option.bind] at h
      | some t1 =>
          rw [hstep] at h
          simp at h
          unfold realize_step at hstep
          cases hgoc : get_or_create t a with
          | none => rw [hgoc] at hstep; cases hstep
          | some pr =>
              obtain ⟨tg, nd⟩ := pr
              rw [hgoc] at hstep
              simp only [Option.some.injEq] at hstep
              have hnd2 : getComps tg (splitName a) = some nd := goc_getComps hgoc
              have hset : getComps t1 (splitName a) = some (setNodeData ps nd) := by
                rw [← hstep]
                exact getComps_modifyAt_self hnd2
              simp only [List.map_cons, List.nodup_cons] at hnd
              obtain ⟨hna, hndr⟩ := hnd
              obtain ⟨ih1, ih2⟩ := ih t1 root h hndr
              constructor
              · intro a2 ps2 hmem
                rcases List.mem_cons.mp hmem with heq | hmem2
                · rw [Prod.mk.injEq] at heq
                  obtain ⟨h1, h2⟩ := heq
                  subst h1
                  subst h2
                  have havoid : ∀ x ∈ rest.map Prod.fst, splitName a2 ≠ splitName x := by
                    intro x hx heq2
                    exact hna (by rw [splitName_injective heq2]; exact hx)
                  obtain ⟨m2, hm2, hm2p, hm2b⟩ := ih2 (splitName a2)
                    (setNodeData ps2 nd) hset havoid
                  exact ⟨m2, hm2, by rw [hm2p]; rfl, by rw [hm2b]; rfl⟩
                · exact ih1 a2 ps2 hmem2
              · intro p m hp havoid
                have hpa : p ≠ splitName a := havoid a (by simp)
                obtain ⟨mg, hmg, _, hmgp, hmgb⟩ := goc_frame hgoc hp
                have hframe := getComps_modifyAt_frame (setNodeData ps)
                  (fun n => rfl) hpa hmg
                obtain ⟨m1, hm1, _, hm1p, hm1b⟩ := hframe
                rw [hstep] at hm1
                obtain ⟨m2, hm2, hm2p, hm2b⟩ := ih2 p m1 hm1
                  (fun x hx => havoid x (List.mem_cons_of_mem _ hx))
                exact ⟨m2, hm2, by rw [hm2p, hm1p, hmgp], by rw [hm2b, hm1b, hmgb]⟩

theorem min_fold_frame :
    ∀ (mins : List String) (t root : RealAccount),
      mins.foldlM (fun t2 a => (get_or_create t2 a).map (fun pr => pr.1)) t =
        some root →
      ∀ p m, getComps t p = some m →
        ∃ m2, getComps root p = some m2 ∧ m2.postings = m.postings ∧
          m2.balance = m.balance := by
  intro mins
  induction mins with
  | nil =>
      intro t root h p m hp
      have ht : t = root := by simpa using h
      subst ht
      exact ⟨m, hp, rfl, rfl⟩
  | cons a rest ih =>
      intro t root h p m hp
      simp only [List.foldlM_cons] at h
      cases hgoc : get_or_create t a with
      | none => rw [hgoc] at h; simp [Option.bind] at h
      | some pr =>
          obtain ⟨tg, nd⟩ := pr
          rw [hgoc] at h
          simp at h
          obtain ⟨mg, hmg, _, hmgp, hmgb⟩ := goc_frame hgoc hp
          obtain ⟨m2, hm2, hm2p, hm2b⟩ := ih tg root h p mg hmg
          exact ⟨m2, hm2, by rw [hm2p, hmgp], by rw [hm2b, hmgb]⟩

/-- Counterexample to the C1 scenario clause: in the two-opens plus one
transaction scenario, the Assets:Checking node's direct posting list has
length 2 (the Open directive is grouped onto the account too, ahead of the
transaction posting), not 1. -/
theorem claim_C1_counterexample :
    ((realize scEntries []).bind (fun root => getComps root ["Assets", "Checking"])).map
        (fun n => n.postings.length) = some 2 ∧ (some 2 : Option ℕ) ≠ some 1 :=
  ⟨rfl, by decide⟩

/-- Claim C1 (amended): realize(entries, min_accounts) returns a root in
which, for every account of the grouped map, the node at the account's
component path has exactly the grouped list as its direct postings and the
Inventory obtained by adding every Posting's position of that list (with
allow_negative = true, non-Posting directives contributing nothing) as its
balance; in the two-opens plus one-transaction scenario the root has
children Assets -> Checking with balance -100 USD and Expenses -> Food with
balance 100 USD, and the Assets:Checking node's direct posting list has
length 2 (the Open entry and the posting). -/
theorem claim_C1_realize :
    (∀ (entries : List Directive) (mins : List String) (root : RealAccount),
        realize entries mins = some root →
        ∀ (a : String) (ps : List Pe), (a, ps) ∈ group_by_account entries →
          ∃ n, getComps root (splitName a) = some n ∧ n.postings = ps ∧
            n.balance = compute_postings_balance ps) ∧
    ((realize scEntries []).map (fun root => root.children.map Prod.fst) =
        some ["Assets", "Expenses"] ∧
      ((realize scEntries []).bind (fun root => getComps root ["Assets", "Checking"])).map
        (fun n => (n.balance, n.postings.length)) = some ([⟨scUSD, -100⟩], 2) ∧
      ((realize scEntries []).bind (fun root => getComps root ["Expenses", "Food"])).map
        (fun n => n.balance) = some [⟨scUSD, 100⟩]) := by
  constructor
  · intro entries mins root h a ps hmem
    unfold realize at h
    cases hfold : (group_by_account entries).foldlM realize_step
        (RealAccount.mk "" [] {} []) with
    | none => rw [hfold] at h; cases h
    | some r0 =>
        rw [hfold] at h
        obtain ⟨hf1, _⟩ := realize_fold_spec (group_by_account entries) _ r0 hfold
          (keys_group_by_account_nodup entries)
        obtain ⟨n, hn, hnp, hnb⟩ := hf1 a ps hmem
        obtain ⟨m2, hm2, hm2p, hm2b⟩ := min_fold_frame mins r0 root h _ n hn
        exact ⟨m2, hm2, by rw [hm2p, hnp], by rw [hm2b, hnb]⟩
  · exact ⟨rfl, rfl, rfl⟩

/-- Witness for C1 (amended), instantiating the general clause on the
scenario itself. -/
theorem claim_C1_witness :
    (realize scEntries [] = some scRoot ∧
      ("Assets:Checking", [scOpen1, Pe.posting scP1]) ∈ group_by_account scEntries) ∧
    ∃ n, getComps scRoot (splitName "Assets:Checking") = some n ∧
      n.postings = [scOpen1, Pe.posting scP1] ∧
      n.balance = compute_postings_balance [scOpen1, Pe.posting scP1] :=
  ⟨⟨rfl, by decide⟩,
    claim_C1_realize.1 scEntries [] scRoot rfl "Assets:Checking"
      [scOpen1, Pe.posting scP1] (by decide)⟩

/-! ### Claim C4: filter -/

theorem mem_allNodesChildren_exists {n : RealAccount} :
    ∀ {cs : List (String × RealAccount)}, n ∈ allNodesChildren cs →
      ∃ pr ∈ cs, n ∈ allNodes pr.2 := by
  intro cs
  induction cs with
  | nil => intro h; cases h
  | cons hd tl ih =>
      obtain ⟨k, c⟩ := hd
      intro h
      simp only [allNodesChildren, List.mem_append] at h
      rcases h with h | h
      · exact ⟨(k, c), List.mem_cons_self _ _, h⟩
      · obtain ⟨pr, hpr, hn⟩ := ih h
        exact ⟨pr, List.mem_cons_of_mem _ hpr, hn⟩

mutual

theorem filterTree_isSome (p : RealAccount → Bool) :
    ∀ (t : RealAccount),
      ((filterTree p t).isSome = true ↔ ∃ n ∈ allNodes t, p n = true)
  | .mk a ps bal cs => by
      have hlist := filterChildren_ne_nil p cs
      simp only [filterTree]
      by_cases hc : 0 < (filterChildren p cs).length ||
          p (RealAccount.mk a ps bal cs)
      · rw [if_pos hc]
        simp only [Option.isSome_some, true_iff]
        rcases Bool.or_eq_true_iff.mp hc with h | h
        · have hne : filterChildren p cs ≠ [] := by
            intro he
            rw [he] at h
            simp at h
          obtain ⟨n, hn, hpn⟩ := hlist.mp hne
          exact ⟨n, by simp [allNodes, List.mem_cons]; exact Or.inr hn, hpn⟩
        · exact ⟨RealAccount.mk a ps bal cs, by simp [allNodes], h⟩
      · rw [if_neg hc]
        simp only [Option.isSome_none, Bool.false_eq_true, false_iff]
        intro hex
        obtain ⟨n, hn, hpn⟩ := hex
        simp only [allNodes, List.mem_cons] at hn
        rcases hn with h | h
        · subst h
          exact hc (by simp [hpn])
        · have hne := hlist.mpr ⟨n, h, hpn⟩
          have : 0 < (filterChildren p cs).length := by
            cases hfc : filterChildren p cs with
            | nil => exact absurd hfc hne
            | cons x xs => simp
          exact hc (by simp [this])

theorem filterChildren_ne_nil (p : RealAccount → Bool) :
    ∀ (cs : List (String × RealAccount)),
      (filterChildren p cs ≠ [] ↔ ∃ n ∈ allNodesChildren cs, p n = true)
  | [] => by simp [filterChildren, allNodesChildren]
  | (k, c) :: rest => by
      have h1 := filterTree_isSome p c
      have h2 := filterChildren_ne_nil p rest
      simp only [filterChildren, allNodesChildren]
      cases hfc : filterTree p c with
      | none =>
          rw [h2]
          have hno : ¬ ∃ n ∈ allNodes c, p n = true := by
            rw [← h1, hfc]
            simp
          constructor
          · intro hex
            obtain ⟨n, hn, hpn⟩ := hex
            exact ⟨n, List.mem_append.mpr (Or.inr hn), hpn⟩
          · intro hex
            obtain ⟨n, hn, hpn⟩ := hex
            rcases List.mem_append.mp hn with h | h
            · exact absurd ⟨n, h, hpn⟩ hno
            · exact ⟨n, h, hpn⟩
      | some c2 =>
          have hyes : ∃ n ∈ allNodes c, p n = true := by
            rw [← h1, hfc]
            rfl
          constructor
          · intro _
            obtain ⟨n, hn, hpn⟩ := hyes
            exact ⟨n, List.mem_append.mpr (Or.inl hn), hpn⟩
          · intro _
            simp

end

mutual

theorem filterTree_leaf (p : RealAccount → Bool) :
    ∀ (t u : RealAccount), filterTree p t = some u →
      ∀ m ∈ allNodes u, m.children = [] →
        ∃ n ∈ allNodes t, n.account = m.account ∧ n.postings = m.postings ∧
          n.balance = m.balance ∧ p n = true
  | .mk a ps bal cs => by
      intro u hu m hm hleaf
      simp only [filterTree] at hu
      by_cases hc : 0 < (filterChildren p cs).length ||
          p (RealAccount.mk a ps bal cs)
      · rw [if_pos hc] at hu
        simp only [Option.some.injEq] at hu
        subst hu
        simp only [allNodes, List.mem_cons] at hm
        rcases hm with h | h
        · subst h
          simp only [RealAccount.children] at hleaf
          have hp : p (RealAccount.mk a ps bal cs) = true := by
            rcases Bool.or_eq_true_iff.mp hc with h2 | h2
            · rw [hleaf] at h2
              simp at h2
            · exact h2
          exact ⟨RealAccount.mk a ps bal cs, by simp [allNodes], rfl, rfl, rfl, hp⟩
        · obtain ⟨pr, hpr, hn⟩ := mem_allNodesChildren_exists h
          obtain ⟨n, hn2, hacc, hpost, hbal, hpn⟩ :=
            filterChildren_leaf p cs pr hpr m hn hleaf
          exact ⟨n, by simp only [allNodes, List.mem_cons]; exact Or.inr hn2,
            hacc, hpost, hbal, hpn⟩
      · rw [if_neg hc] at hu
        cases hu

theorem filterChildren_leaf (p : RealAccount → Bool) :
    ∀ (cs : List (String × RealAccount)) (pr : String × RealAccount),
      pr ∈ filterChildren p cs →
      ∀ m ∈ allNodes pr.2, m.children = [] →
        ∃ n ∈ allNodesChildren cs, n.account = m.account ∧
          n.postings = m.postings ∧ n.balance = m.balance ∧ p n = true
  | [] => by
      intro pr hpr
      simp [filterChildren] at hpr
  | (k, c) :: rest => by
      intro pr hpr m hm hleaf
      simp only [filterChildren] at hpr
      cases hfc : filterTree p c with
      | none =>
          rw [hfc] at hpr
          obtain ⟨n, hn, hprops⟩ := filterChildren_leaf p rest pr hpr m hm hleaf
          exact ⟨n, by simp only [allNodesChildren, List.mem_append]; exact Or.inr hn,
            hprops⟩
      | some c2 =>
          rw [hfc] at hpr
          rcases List.mem_cons.mp hpr with h | h
          · subst h
            obtain ⟨n, hn, hprops⟩ := filterTree_leaf p c c2 hfc m hm hleaf
            exact ⟨n, by simp only [allNodesChildren, List.mem_append]; exact Or.inl hn,
              hprops⟩
          · obtain ⟨n, hn, hprops⟩ := filterChildren_leaf p rest pr h m hm hleaf
            exact ⟨n, by simp only [allNodesChildren, List.mem_append]; exact Or.inr hn,
              hprops⟩

end

theorem filterTree_some_eq {p : RealAccount → Bool} {t u : RealAccount}
    (h : filterTree p t = some u) :
    u.account = t.account ∧ u.postings = t.postings ∧ u.balance = t.balance ∧
      u.children = filterChildren p t.children := by
  obtain ⟨a, ps, bal, cs⟩ := t
  simp only [filterTree] at h
  by_cases hc : 0 < (filterChildren p cs).length || p (RealAccount.mk a ps bal cs)
  · rw [if_pos hc] at h
    simp only [Option.some.injEq] at h
    subst h
    exact ⟨rfl, rfl, rfl, rfl⟩
  · rw [if_neg hc] at h
    cases h

/-- Claim C4: filter keeps the root exactly when the predicate holds of
some node of the tree (so it returns None when nothing survives); a kept
copy preserves account, postings and balance and its children are exactly
the filtered children (so a node survives iff the predicate holds of it or
a descendant survives); and every leaf of the result corresponds to an
original node, with the same account, postings and balance, at which the
predicate holds. -/
theorem claim_C4_filter :
    ∀ (p : RealAccount → Bool) (t : RealAccount),
      ((filterTree p t).isSome = true ↔ ∃ n ∈ allNodes t, p n = true) ∧
      (∀ u, filterTree p t = some u →
        (u.account = t.account ∧ u.postings = t.postings ∧
          u.balance = t.balance ∧ u.children = filterChildren p t.children) ∧
        (∀ m ∈ allNodes u, m.children = [] →
          ∃ n ∈ allNodes t, n.account = m.account ∧ n.postings = m.postings ∧
            n.balance = m.balance ∧ p n = true)) := by
  intro p t
  refine ⟨filterTree_isSome p t, ?_⟩
  intro u hu
  exact ⟨filterTree_some_eq hu, fun m hm hleaf => filterTree_leaf p t u hu m hm hleaf⟩

/-- Witness for C4 on a concrete tree and predicate: keep nodes whose
account is Assets:Checking. -/
theorem claim_C4_witness :
    filterTree (fun n => n.account = "Assets:Checking") TA =
        some (.mk "" [] {}
          [("Assets", .mk "Assets" [] {} [("Checking", ndChecking)])]) ∧
      ((filterTree (fun n => n.account = "Assets:Checking") TA).isSome = true ↔
        ∃ n ∈ allNodes TA, (n.account = "Assets:Checking" : Bool) = true) ∧
      (∀ m ∈ allNodes (RealAccount.mk "" [] {}
          [("Assets", .mk "Assets" [] {} [("Checking", ndChecking)])]),
        m.children = [] →
        ∃ n ∈ allNodes TA, n.account = m.account ∧ n.postings = m.postings ∧
          n.balance = m.balance ∧ (n.account = "Assets:Checking" : Bool) = true) :=
  ⟨rfl,
    (claim_C4_filter (fun n => n.account = "Assets:Checking") TA).1,
    ((claim_C4_filter (fun n => n.account = "Assets:Checking") TA).2 _ rfl).2⟩

/-! ### Claim C6: iter_children -/

theorem charListLe_cons_iff {x y : Char} {xs ys : List Char} :
    charListLe (x :: xs) (y :: ys) = true ↔
      x.toNat < y.toNat ∨ (x.toNat = y.toNat ∧ charListLe xs ys = true) := by
  simp only [charListLe]
  by_cases h1 : x.toNat < y.toNat
  · simp [h1]
  · by_cases h2 : y.toNat < x.toNat
    · rw [if_neg h1, if_pos h2]
      simp only [Bool.false_eq_true, false_iff]
      intro h
      rcases h with h | ⟨h, _⟩ <;> omega
    · have h3 : x.toNat = y.toNat := by omega
      rw [if_neg h1, if_neg h2]
      constructor
      · intro h
        exact Or.inr ⟨h3, h⟩
      · intro h
        rcases h with h | ⟨_, h⟩
        · omega
        · exact h

theorem charListLe_total : ∀ (a b : List Char),
    charListLe a b = true ∨ charListLe b a = true := by
  intro a
  induction a with
  | nil => intro b; exact Or.inl rfl
  | cons x xs ih =>
      intro b
      cases b with
      | nil => exact Or.inr rfl
      | cons y ys =>
          rcases Nat.lt_trichotomy x.toNat y.toNat with h | h | h
          · exact Or.inl (charListLe_cons_iff.mpr (Or.inl h))
          · rcases ih ys with h2 | h2
            · exact Or.inl (charListLe_cons_iff.mpr (Or.inr ⟨h, h2⟩))
            · exact Or.inr (charListLe_cons_iff.mpr (Or.inr ⟨h.symm, h2⟩))
          · exact Or.inr (charListLe_cons_iff.mpr (Or.inl h))

theorem charListLe_trans : ∀ (a b c : List Char), charListLe a b = true →
    charListLe b c = true → charListLe a c = true := by
  intro a
  induction a with
  | nil => intro b c _ _; rfl
  | cons x xs ih =>
      intro b c hab hbc
      cases b with
      | nil => simp [charListLe] at hab
      | cons y ys =>
          cases c with
          | nil => simp [charListLe] at hbc
          | cons z zs =>
              rcases charListLe_cons_iff.mp hab with h1 | ⟨h1, h1b⟩ <;>
                rcases charListLe_cons_iff.mp hbc with h2 | ⟨h2, h2b⟩
              · exact charListLe_cons_iff.mpr (Or.inl (by omega))
              · exact charListLe_cons_iff.mpr (Or.inl (by omega))
              · exact charListLe_cons_iff.mpr (Or.inl (by omega))
              · exact charListLe_cons_iff.mpr (Or.inr ⟨by omega, ih ys zs h1b h2b⟩)

instance : IsTotal (String × RealAccount) keyLe :=
  ⟨fun a b => charListLe_total a.1.data b.1.data⟩

instance : IsTrans (String × RealAccount) keyLe :=
  ⟨fun a b c h1 h2 => charListLe_trans a.1.data b.1.data c.1.data h1 h2⟩

theorem sortK_sorted (l : List (String × RealAccount)) :
    List.Sorted keyLe (sortK l) :=
  List.sorted_insertionSort keyLe l

theorem sortK_idem (l : List (String × RealAccount)) : sortK (sortK l) = sortK l :=
  List.Sorted.insertionSort_eq (sortK_sorted l)

theorem orderedInsert_mapVal (f : RealAccount → RealAccount)
    (pr : String × RealAccount) :
    ∀ (l : List (String × RealAccount)),
      List.orderedInsert keyLe (pr.1, f pr.2) (l.map (fun q => (q.1, f q.2))) =
        (List.orderedInsert keyLe pr l).map (fun q => (q.1, f q.2)) := by
  intro l
  induction l with
  | nil => rfl
  | cons q rest ih =>
      simp only [List.map_cons, List.orderedInsert]
      by_cases h : keyLe pr q
      · have h2 : keyLe (pr.1, f pr.2) (q.1, f q.2) := h
        rw [if_pos h2, if_pos h]
        simp
      · have h2 : ¬ keyLe (pr.1, f pr.2) (q.1, f q.2) := h
        rw [if_neg h2, if_neg h]
        simp only [List.map_cons]
        rw [ih]

theorem sortK_mapVal (f : RealAccount → RealAccount)
    (l : List (String × RealAccount)) :
    sortK (l.map (fun q => (q.1, f q.2))) =
      (sortK l).map (fun q => (q.1, f q.2)) := by
  induction l with
  | nil => rfl
  | cons q rest ih =>
      show List.orderedInsert keyLe (q.1, f q.2) (sortK (rest.map _)) =
        (List.orderedInsert keyLe q (sortK rest)).map (fun q2 => (q2.1, f q2.2))
      rw [ih]
      exact orderedInsert_mapVal f q (sortK rest)

theorem canonChildren_eq_map : ∀ (cs : List (String × RealAccount)),
    canonChildren cs = cs.map (fun q => (q.1, canon q.2)) := by
  intro cs
  induction cs with
  | nil => rfl
  | cons q rest ih =>
      obtain ⟨k, c⟩ := q
      simp [canonChildren, ih]

theorem iter_children_unfold (lo : Bool) (a : String) (ps : List Pe)
    (bal : Inventory) (cs : List (String × RealAccount)) :
    iter_children lo (.mk a ps bal cs) =
      if lo then
        (if cs.isEmpty then [RealAccount.mk a ps bal cs]
         else ((sortK cs).map (fun x => iter_children lo x.2)).flatten)
      else
        RealAccount.mk a ps bal cs ::
          ((sortK cs).map (fun x => iter_children lo x.2)).flatten := by
  rw [iter_children]
  rw [show ((sortK cs).attach.map (fun x => iter_children lo x.1.2)) =
    (sortK cs).map (fun pr => iter_children lo pr.2) from
    List.attach_map_val (sortK cs) (fun pr => iter_children lo pr.2)]

theorem iter_children_unfold_false (a : String) (ps : List Pe)
    (bal : Inventory) (cs : List (String × RealAccount)) :
    iter_children false (.mk a ps bal cs) =
      RealAccount.mk a ps bal cs ::
        ((sortK cs).map (fun x => iter_children false x.2)).flatten := by
  rw [iter_children_unfold]
  rfl

theorem iter_children_unfold_true_nil (a : String) (ps : List Pe)
    (bal : Inventory) :
    iter_children true (.mk a ps bal []) = [RealAccount.mk a ps bal []] := by
  rw [iter_children_unfold]
  rfl

theorem iter_children_unfold_true (a : String) (ps : List Pe)
    (bal : Inventory) (cs : List (String × RealAccount))
    (h : ¬ cs.isEmpty = true) :
    iter_children true (.mk a ps bal cs) =
      ((sortK cs).map (fun x => iter_children true x.2)).flatten := by
  rw [iter_children_unfold]
  show (if cs.isEmpty = true then _ else _) = _
  rw [if_neg h]

theorem sortK_length (l : List (String × RealAccount)) :
    (sortK l).length = l.length :=
  (List.perm_insertionSort keyLe l).length_eq

theorem sizeOf_pos_ra (t : RealAccount) : 0 < sizeOf t := by
  obtain ⟨a, ps, bal, cs⟩ := t
  simp only [RealAccount.mk.sizeOf_spec]
  omega

theorem sizeOf_mem_sortK_le {cs : List (String × RealAccount)}
    {pr : String × RealAccount} (hpr : pr ∈ sortK cs) {a : String} {ps : List Pe}
    {bal : Inventory} {N : ℕ} (ht : sizeOf (RealAccount.mk a ps bal cs) ≤ N + 1) :
    sizeOf pr.2 ≤ N := by
  have h1 := List.sizeOf_lt_of_mem ((List.perm_insertionSort keyLe cs).mem_iff.mp
    (by simpa [sortK] using hpr))
  have h2 : sizeOf pr.2 < sizeOf pr := by
    obtain ⟨k, c⟩ := pr
    simp only [Prod.mk.sizeOf_spec]
    omega
  simp only [RealAccount.mk.sizeOf_spec] at ht
  omega

theorem iter_names_canon (lo : Bool) :
    ∀ (t : RealAccount),
      (iter_children lo (canon t)).map RealAccount.account =
        (iter_children lo t).map RealAccount.account := by
  suffices H : ∀ (N : ℕ) (t : RealAccount), sizeOf t ≤ N →
      (iter_children lo (canon t)).map RealAccount.account =
        (iter_children lo t).map RealAccount.account by
    exact fun t => H (sizeOf t) t le_rfl
  intro N
  induction N with
  | zero =>
      intro t ht
      have := sizeOf_pos_ra t
      omega
  | succ N ihN =>
      intro t ht
      obtain ⟨a, ps, bal, cs⟩ := t
      have hcanon : canon (RealAccount.mk a ps bal cs) =
          RealAccount.mk a ps bal (sortK (cs.map (fun q => (q.1, canon q.2)))) := by
        show RealAccount.mk a ps bal (sortK (canonChildren cs)) = _
        rw [canonChildren_eq_map]
      rw [hcanon]
      have htail :
          (((sortK (sortK (cs.map (fun q => (q.1, canon q.2))))).map
              (fun x => iter_children lo x.2)).flatten).map RealAccount.account =
          (((sortK cs).map (fun x => iter_children lo x.2)).flatten).map
            RealAccount.account := by
        rw [sortK_idem, sortK_mapVal]
        rw [List.map_flatten, List.map_flatten, List.map_map, List.map_map,
          List.map_map]
        congr 1
        refine List.map_congr_left ?_
        intro pr hpr
        exact ihN pr.2 (sizeOf_mem_sortK_le hpr ht)
      cases lo with
      | false =>
          rw [iter_children_unfold_false, iter_children_unfold_false]
          simp only [List.map_cons]
          rw [htail]
          rfl
      | true =>
          by_cases hcs : cs = []
          · subst hcs
            rw [show sortK (List.map
                (fun q => ((q : String × RealAccount).1, canon q.2)) []) =
              ([] : List (String × RealAccount)) from rfl]
          · have hlen : cs.length ≠ 0 := by
              intro h
              exact hcs (List.length_eq_zero.mp h)
            have hA : ¬ ((sortK (cs.map (fun q => (q.1, canon q.2)))).isEmpty = true) := by
              rw [List.isEmpty_iff_length_eq_zero, sortK_length, List.length_map]
              exact hlen
            have hB : ¬ (cs.isEmpty = true) := by
              rw [List.isEmpty_iff_length_eq_zero]
              exact hlen
            rw [iter_children_unfold_true _ _ _ _ hA, iter_children_unfold_true _ _ _ _ hB]
            exact htail

theorem filter_flatten_eq {α : Type} (p : α → Bool) :
    ∀ (L : List (List α)), (L.flatten).filter p = (L.map (List.filter p)).flatten := by
  intro L
  induction L with
  | nil => rfl
  | cons x xs ih => simp [List.filter_append, ih]

theorem iter_leaf_filter :
    ∀ (t : RealAccount), iter_children true t =
      (iter_children false t).filter (fun n => n.children.isEmpty) := by
  suffices H : ∀ (N : ℕ) (t : RealAccount), sizeOf t ≤ N →
      iter_children true t =
        (iter_children false t).filter (fun n => n.children.isEmpty) by
    exact fun t => H (sizeOf t) t le_rfl
  intro N
  induction N with
  | zero =>
      intro t ht
      have := sizeOf_pos_ra t
      omega
  | succ N ihN =>
      intro t ht
      obtain ⟨a, ps, bal, cs⟩ := t
      by_cases hcs : cs = []
      · subst hcs
        rw [iter_children_unfold_true_nil, iter_children_unfold_false]
        rw [show sortK ([] : List (String × RealAccount)) = [] from rfl]
        simp [RealAccount.children]
      · have hB : ¬ (cs.isEmpty = true) := by
          rw [List.isEmpty_iff_length_eq_zero]
          intro h
          exact hcs (List.length_eq_zero.mp h)
        rw [iter_children_unfold_true _ _ _ _ hB, iter_children_unfold_false]
        rw [List.filter_cons]
        have hchildren : ((RealAccount.mk a ps bal cs).children.isEmpty) = false := by
          simp only [RealAccount.children]
          cases cs with
          | nil => exact absurd rfl hcs
          | cons x xs => rfl
        rw [hchildren]
        simp only [Bool.false_eq_true, if_false]
        rw [filter_flatten_eq, List.map_map]
        congr 1
        refine List.map_congr_left ?_
        intro pr hpr
        exact ihN pr.2 (sizeOf_mem_sortK_le hpr ht)

/-- Claim C6: iter_children with leaves_only false yields the node itself
first and then recurses into the children in ascending key order; with
leaves_only true it yields exactly the nodes with zero children (the
leaves, in the same depth-first order); and the sequence of yielded account
names depends only on the contents of the tree, not on the order in which
children were inserted (trees with equal canonical forms yield equal name
sequences). -/
theorem claim_C6_iter_children :
    (∀ (t : RealAccount),
        iter_children false t = t ::
          ((sortK t.children).map (fun pr => iter_children false pr.2)).flatten) ∧
    (∀ (t : RealAccount), iter_children true t =
        (iter_children false t).filter (fun n => n.children.isEmpty)) ∧
    (∀ (b : Bool) (t1 t2 : RealAccount), canon t1 = canon t2 →
        (iter_children b t1).map RealAccount.account =
          (iter_children b t2).map RealAccount.account) := by
  refine ⟨?_, iter_leaf_filter, ?_⟩
  · intro t
    obtain ⟨a, ps, bal, cs⟩ := t
    rw [iter_children_unfold]
    rfl
  · intro b t1 t2 hc
    rw [← iter_names_canon b t1, ← iter_names_canon b t2, hc]

/-- Witness for C6: two trees with the same children inserted in different
orders have the same canonical form and yield the same name sequence. -/
theorem claim_C6_witness :
    canon T6a = canon T6b ∧
      (iter_children false T6a).map RealAccount.account =
        (iter_children false T6b).map RealAccount.account :=
  ⟨rfl, claim_C6_iter_children.2.2 false T6a T6b rfl⟩

end Realization
